import Mathlib

/-!
Verification of the Connect-4 search engine in `betterai_player.py`.

The board convention follows the source: a 6x7 grid, row 0 at the top,
values 0 (empty), 1 (human), -1 (AI).  A board is embedded as a flat
row-major `List Int` of length 42.  Machine floats `±math.inf` appear in
the source only as sentinels for comparisons with scores whose magnitude
never exceeds the win score 10,000,000; they are embedded as the integer
sentinels `±INF` with `INF = 10^15`, which preserves every comparison the
code performs.  The Zobrist position hash is a content fingerprint (the
spec requires boards with identical cells to hash identically); it is
embedded as the board content itself, an injective fingerprint, which is
the collision-free behaviour of the 64-bit random constants.
-/

set_option linter.unusedVariables false
set_option linter.unreachableTactic false
set_option linter.unusedTactic false

abbrev Board := List Int

/-- Cell read `board[r, c]` (row-major, in-bounds reads only in the source). -/
def getCell (b : Board) (r c : Nat) : Int := b.getD (r * 7 + c) 0

/-- Cell write `board[r, c] = v`. -/
def setCell (b : Board) (r c : Nat) (v : Int) : Board := b.set (r * 7 + c) v

/-- The catalogue `WINDOWS` of every length-4 line, built exactly as the four
source loops build it: horizontals, verticals, diagonal `/`, diagonal `\`. -/
def WINDOWS : List (List (Nat × Nat)) :=
  ((List.range 6).flatMap fun r => (List.range 4).map fun c =>
    (List.range 4).map fun i => (r, c + i)) ++
  ((List.range 3).flatMap fun r => (List.range 7).map fun c =>
    (List.range 4).map fun i => (r + i, c)) ++
  ((List.range 3).flatMap fun r => (List.range 4).map fun c =>
    (List.range 4).map fun i => (r + i, c + i)) ++
  ((List.range 3).flatMap fun r => (List.range 4).map fun c =>
    (List.range 4).map fun i => (r + 3 - i, c + i))

def CENTER_COL : Nat := 3

def MOVE_ORDER : List Nat := [3, 4, 2, 5, 1, 6, 0]

/-- Sentinel embedding `math.inf`; larger than any score the search produces. -/
def INF : Int := 1000000000000000

/-- The immediate-win score `10_000_000`. -/
def WINSCORE : Int := 10000000

/-- `_valid_moves`: columns whose top cell is empty, in column order. -/
def validMoves (b : Board) : List Nat :=
  (List.range 7).filter fun c => getCell b 0 c == 0

/-- `_ordered_moves`: legal columns in the static center-first order. -/
def orderedMoves (b : Board) : List Nat :=
  MOVE_ORDER.filter fun c => getCell b 0 c == 0

/-- `_next_open_row`: lowest empty row of a column, scanning r = 5 down to 0. -/
def nextOpenRow (b : Board) (c : Nat) : Option Nat :=
  (List.range 6).reverse.find? fun r => getCell b r c == 0

/-- The `count_dir` closure of `_is_win`: walk from `(rr, cc)` in direction
`(dr, dc)` counting consecutive in-bounds cells of `player`.  The source loop
terminates because a coordinate moves by 1 each step; fuel 8 exceeds the
longest possible in-bounds walk (7 cells). -/
def countDir (b : Board) (p : Int) : Nat → Int → Int → Int → Int → Nat
  | 0, _, _, _, _ => 0
  | fuel + 1, rr, cc, dr, dc =>
    if 0 ≤ rr ∧ rr < 6 ∧ 0 ≤ cc ∧ cc < 7 ∧ getCell b rr.toNat cc.toNat = p then
      countDir b p fuel (rr + dr) (cc + dc) dr dc + 1
    else 0

/-- `_is_win`: local check through the just-played cell `(r, c)`; a total run
of length ≥ 4 on any of the four axes is a win. -/
def isWin (b : Board) (p : Int) (r c : Nat) : Bool :=
  [((0 : Int), (1 : Int)), (1, 0), (1, 1), (-1, 1)].any fun d =>
    decide ((countDir b p 8 r c d.1 d.2 : Int) +
            (countDir b p 8 r c (-d.1) (-d.2) : Int) - 1 ≥ 4)

/-- Occupant values of a window's four cells. -/
def windowCells (b : Board) (w : List (Nat × Nat)) : List Int :=
  w.map fun q => getCell b q.1 q.2

/-- Score of one window in `_evaluate`, with the exact source constants,
including the asymmetric defensive weights -1200 and -35. -/
def windowScore (b : Board) (w : List (Nat × Nat)) : Int :=
  let vals := windowCells b w
  let ai := vals.count (-1)
  let hu := vals.count 1
  let em := vals.count 0
  if ai > 0 ∧ hu = 0 then
    if ai = 3 ∧ em = 1 then 1000
    else if ai = 2 ∧ em = 2 then 30
    else if ai = 1 ∧ em = 3 then 5
    else 0
  else if hu > 0 ∧ ai = 0 then
    if hu = 3 ∧ em = 1 then -1200
    else if hu = 2 ∧ em = 2 then -35
    else if hu = 1 ∧ em = 3 then -5
    else 0
  else 0

/-- `_evaluate`: center-column bias plus the sum of all window scores, always
from the fixed perspective of player -1 (the AI). -/
def evaluate (b : Board) : Int :=
  let center := (List.range 6).map fun r => getCell b r CENTER_COL
  let centerScore : Int := 6 * ((center.count (-1) : Int) - (center.count 1 : Int))
  WINDOWS.foldl (fun s w => s + windowScore b w) centerScore

/-- Transposition-table entry, as the `TTEntry` dataclass. -/
structure TTEntry where
  depth : Nat
  score : Int
  flag : Int
  best_move : Option Nat
deriving Repr, DecidableEq

/-- The transposition table `self.tt`, keyed by the content fingerprint. -/
abbrev TT := List (Board × TTEntry)

def ttLookup (tt : TT) (k : Board) : Option TTEntry :=
  (tt.find? fun e => e.1 == k).map (·.2)

/-- Dictionary assignment `self.tt[key] = e` (latest write shadows older). -/
def ttStore (tt : TT) (k : Board) (e : TTEntry) : TT := (k, e) :: tt

/-- `_order_with_tt_first`: the cached best move first when it is still legal,
then the remaining legal columns in the static order. -/
def orderWithTTFirst (valid : List Nat) (tt : TT) (key : Board) : List Nat :=
  let bm : Option Nat :=
    match ttLookup tt key with
    | some e =>
      match e.best_move with
      | some m => if valid.contains m then some m else none
      | none => none
    | none => none
  match bm with
  | some m => m :: MOVE_ORDER.filter fun c => (c != m) && valid.contains c
  | none => MOVE_ORDER.filter fun c => valid.contains c

/-- Mutable search state threaded through the recursion: the board mutated in
place, the transposition table, the count of `_time_up` calls made so far, and
the `self.stop` flag. -/
structure SState where
  board : Board
  tt : TT
  ticks : Nat
  stop : Bool
deriving Repr

/-- One `self._time_up()` call under a clock oracle: the oracle answers the
n-th wall-clock query of the current `best_move` invocation. -/
def timeUp (clock : Nat → Bool) (st : SState) : Bool × SState :=
  (clock st.ticks, { st with ticks := st.ticks + 1 })

/-- The clock of a time budget that never expires during the search. -/
def neverClock : Nat → Bool := fun _ => false

/-- The transposition-table probe at the top of `_negamax`: an optional early
return plus the (possibly tightened) window. -/
def ttProbe (tt : TT) (key : Board) (depth : Nat) (alpha beta : Int) :
    Option Int × Int × Int :=
  match ttLookup tt key with
  | none => (none, alpha, beta)
  | some e =>
    if e.depth ≥ depth then
      if e.flag = 0 then (some e.score, alpha, beta)
      else
        let alpha' := if e.flag < 0 then max alpha e.score else alpha
        let beta' := if e.flag < 0 then beta else min beta e.score
        if alpha' ≥ beta' then (some e.score, alpha', beta') else (none, alpha', beta')
    else (none, alpha, beta)

/-- The move loop of `_negamax`: make each move, score it (immediate win or
negated recursive call through `child`), undo, track the best value and move,
raise alpha, and stop on a beta cutoff.  Returns the final value, the final
alpha (used by the write-back), the best move, and the state. -/
def nmTTLoop (child : SState → Int → Int → Int × SState) (p beta : Int) :
    List Nat → SState → Int → Int → Option Nat → Int × Int × Option Nat × SState
  | [], st, value, alpha, bm => (value, alpha, bm, st)
  | c :: rest, st, value, alpha, bm =>
    match nextOpenRow st.board c with
    | none => nmTTLoop child p beta rest st value alpha bm
    | some r =>
      let b2 := setCell st.board r c p
      let res :=
        if isWin b2 p r c then (WINSCORE, { st with board := b2 })
        else
          let rc := child { st with board := b2 } (-beta) (-alpha)
          (-rc.1, rc.2)
      let st3 := { res.2 with board := setCell res.2.board r c 0 }
      let value' := if res.1 > value then res.1 else value
      let bm' := if res.1 > value then some c else bm
      let alpha' := max alpha res.1
      if alpha' ≥ beta then (value', alpha', bm', st3)
      else nmTTLoop child p beta rest st3 value' alpha' bm'

/-- The body of `_negamax` for a given remaining depth, with the recursive
call abstracted as `child`: time check, transposition probe, draw check,
depth-0 leaf, move loop, and the write-back of the table entry whose flag is
computed from the final value and the loop-updated alpha. -/
def negamaxStep (clock : Nat → Bool) (depth : Nat)
    (child : SState → Int → Int → Int → Int × SState)
    (st : SState) (p alpha beta : Int) : Int × SState :=
  let t := timeUp clock st
  let st := t.2
  if t.1 then (0, { st with stop := true }) else
  let key := st.board
  let pr := ttProbe st.tt key depth alpha beta
  match pr.1 with
  | some s => (s, st)
  | none =>
    let alpha := pr.2.1
    let beta := pr.2.2
    if validMoves st.board = [] then (0, st)
    else
      match depth with
      | 0 => (evaluate st.board * (if p = -1 then 1 else -1), st)
      | d + 1 =>
        let moves := orderWithTTFirst (validMoves st.board) st.tt key
        let lr := nmTTLoop (fun st' a b => child st' (-p) a b) p beta moves st (-INF) alpha none
        let flag : Int := if lr.1 ≤ lr.2.1 then 1 else if lr.1 ≥ beta then -1 else 0
        let st' := lr.2.2.2
        (lr.1, { st' with tt := ttStore st'.tt key ⟨depth, lr.1, flag, lr.2.2.1⟩ })

/-- `_negamax` with the transposition cache, by structural recursion on the
remaining depth (at depth 0 the child continuation is never reached). -/
def negamaxTT (clock : Nat → Bool) : Nat → SState → Int → Int → Int → Int × SState
  | 0 => fun st p alpha beta =>
      negamaxStep clock 0 (fun st' _ _ _ => (0, st')) st p alpha beta
  | d + 1 => fun st p alpha beta =>
      negamaxStep clock (d + 1) (negamaxTT clock d) st p alpha beta

/-- The move loop of `_negamax_root`: like the inner loop but with a time
check before every column and best-score/best-move tracking. -/
def nmRootLoop (clock : Nat → Bool) (child : SState → Int → Int → Int × SState)
    (p : Int) :
    List Nat → SState → Int → Option Nat → Int → Int → Int × Option Nat × SState
  | [], st, best, bm, _, _ => (best, bm, st)
  | c :: rest, st, best, bm, alpha, beta =>
    let t := timeUp clock st
    let st := t.2
    if t.1 then (best, bm, { st with stop := true }) else
    match nextOpenRow st.board c with
    | none => nmRootLoop clock child p rest st best bm alpha beta
    | some r =>
      let b2 := setCell st.board r c p
      let res :=
        if isWin b2 p r c then (WINSCORE, { st with board := b2 })
        else
          let rc := child { st with board := b2 } (-beta) (-alpha)
          (-rc.1, rc.2)
      let st3 := { res.2 with board := setCell res.2.board r c 0 }
      let best' := if res.1 > best then res.1 else best
      let bm' := if res.1 > best then some c else bm
      let alpha' := max alpha res.1
      if alpha' ≥ beta then (best', bm', st3)
      else nmRootLoop clock child p rest st3 best' bm' alpha' beta

/-- `_negamax_root`: the root pass at a given depth, returning the best score,
the best move (or none), and the state. -/
def negamaxRootTT (clock : Nat → Bool) (st : SState) (depth : Nat)
    (p alpha beta : Int) : Int × Option Nat × SState :=
  nmRootLoop clock (fun st' a b => negamaxTT clock (depth - 1) st' (-p) a b) p
    (orderedMoves st.board) st (-INF) none alpha beta

/-- The iterative-deepening loop of `best_move` over the remaining depths:
stop on an expired budget before a pass, discard a pass aborted mid-flight,
otherwise adopt the pass's move. -/
def idLoop (clock : Nat → Bool) (p : Int) :
    List Nat → SState → Nat → Int → Nat
  | [], _, best, _ => best
  | depth :: rest, st, best, bestScore =>
    let t := timeUp clock st
    let st := t.2
    if t.1 then best
    else
      let res := negamaxRootTT clock st depth p (-INF) INF
      if res.2.2.stop then best
      else
        match res.2.1 with
        | some m => idLoop clock p rest res.2.2 m res.1
        | none => idLoop clock p rest res.2.2 best bestScore

/-- `best_move`: clear the table, fall back to column 3 when no column is
legal, otherwise iteratively deepen from 1 to `maxDepth`. -/
def bestMove (clock : Nat → Bool) (board : Board) (p : Int) (maxDepth : Nat) : Nat :=
  let st0 : SState := ⟨board, [], 0, false⟩
  match validMoves board with
  | [] => 3
  | v :: _ => idLoop clock p (List.range' 1 maxDepth) st0 v (-INF)

/-- The move loop of `_negamax` with the transposition cache disabled: the
pure alpha-beta loop (used by the amended form of the refinement claim). -/
def nmLoop (child : Board → Int → Int → Int → Int) (b : Board) (p beta : Int) :
    List Nat → Int → Int → Int
  | [], value, _ => value
  | c :: rest, value, alpha =>
    match nextOpenRow b c with
    | none => nmLoop child b p beta rest value alpha
    | some r =>
      let b2 := setCell b r c p
      let s := if isWin b2 p r c then WINSCORE else -(child b2 (-p) (-beta) (-alpha))
      let value' := max value s
      let alpha' := max alpha s
      if alpha' ≥ beta then value' else nmLoop child b p beta rest value' alpha'

/-- `_negamax` with the transposition cache disabled and an unbounded budget:
draw check, leaf evaluation, and the alpha-beta move loop. -/
def negamaxNoTT : Nat → Board → Int → Int → Int → Int
  | 0 => fun b p _ _ =>
      if validMoves b = [] then 0
      else evaluate b * (if p = -1 then 1 else -1)
  | d + 1 => fun b p alpha beta =>
      if validMoves b = [] then 0
      else nmLoop (negamaxNoTT d) b p beta (orderedMoves b) (-INF) alpha

/-- Modelled from the spec (claim C1's reference semantics): the score of one
child move of the plain minimax, with the same game tree, leaf evaluation,
and win score as the search. -/
def mmChildScore (child : Board → Int → Int) (b : Board) (p : Int) (c : Nat) : Int :=
  match nextOpenRow b c with
  | none => -INF
  | some r =>
    let b2 := setCell b r c p
    if isWin b2 p r c then WINSCORE else -(child b2 (-p))

/-- Modelled from the spec (claim C1's reference semantics): plain fixed-depth
minimax in negamax form, no pruning and no cache, draw value 0, the same leaf
evaluation, win score 10,000,000. -/
def minimaxValue : Nat → Board → Int → Int
  | 0 => fun b p =>
      if validMoves b = [] then 0
      else evaluate b * (if p = -1 then 1 else -1)
  | d + 1 => fun b p =>
      if validMoves b = [] then 0
      else (validMoves b).foldl
        (fun acc c => max acc (mmChildScore (minimaxValue d) b p c)) (-INF)

/-! ### Boards used in concrete checks -/

/-- The empty board. -/
def emptyB : Board := List.replicate 42 0

/-- A full board (no legal columns): alternating columns of the two players. -/
def fullB : Board :=
  [1,-1,1,-1,1,-1,1, -1,1,-1,1,-1,1,-1, 1,-1,1,-1,1,-1,1,
   -1,1,-1,1,-1,1,-1, -1,1,-1,1,-1,1,-1, 1,-1,1,-1,1,-1,1]

/-- A board whose only nonempty cells are two adjacent human pieces on the
bottom row: its evaluation exercises the -35 defensive weight. -/
def twoHumanB : Board :=
  [0,0,0,0,0,0,0, 0,0,0,0,0,0,0, 0,0,0,0,0,0,0,
   0,0,0,0,0,0,0, 0,0,0,0,0,0,0, 1,1,0,0,0,0,0]

/-! ### Claim C3: the evaluator weights -/

/-- Modelled from the claim's words (C3): the window weights as the claim
states them, with a symmetric ±30 for the 2-with-2-empty pattern. -/
def windowScoreClaimed (b : Board) (w : List (Nat × Nat)) : Int :=
  let vals := windowCells b w
  let ai := vals.count (-1)
  let hu := vals.count 1
  let em := vals.count 0
  if ai > 0 ∧ hu > 0 then 0
  else if ai = 3 ∧ hu = 0 ∧ em = 1 then 1000
  else if hu = 3 ∧ ai = 0 ∧ em = 1 then -1200
  else if ai = 2 ∧ hu = 0 ∧ em = 2 then 30
  else if hu = 2 ∧ ai = 0 ∧ em = 2 then -30
  else if ai = 1 ∧ hu = 0 ∧ em = 3 then 5
  else if hu = 1 ∧ ai = 0 ∧ em = 3 then -5
  else 0

/-- Modelled from the claim's words (C3): the whole evaluator as the claim
states it. -/
def evalClaimed (b : Board) : Int :=
  let center := (List.range 6).map fun r => getCell b r CENTER_COL
  WINDOWS.foldl (fun s w => s + windowScoreClaimed b w)
    (6 * ((center.count (-1) : Int) - (center.count 1 : Int)))

/-- The amended weights (C3): minus 35, not minus 30, for the opponent's
2-with-2-empty pattern; everything else as the claim states. -/
def windowScoreAmended (b : Board) (w : List (Nat × Nat)) : Int :=
  let vals := windowCells b w
  let ai := vals.count (-1)
  let hu := vals.count 1
  let em := vals.count 0
  if ai > 0 ∧ hu > 0 then 0
  else if ai = 3 ∧ hu = 0 ∧ em = 1 then 1000
  else if hu = 3 ∧ ai = 0 ∧ em = 1 then -1200
  else if ai = 2 ∧ hu = 0 ∧ em = 2 then 30
  else if hu = 2 ∧ ai = 0 ∧ em = 2 then -35
  else if ai = 1 ∧ hu = 0 ∧ em = 3 then 5
  else if hu = 1 ∧ ai = 0 ∧ em = 3 then -5
  else 0

/-- The amended evaluator (C3). -/
def evalAmended (b : Board) : Int :=
  let center := (List.range 6).map fun r => getCell b r CENTER_COL
  WINDOWS.foldl (fun s w => s + windowScoreAmended b w)
    (6 * ((center.count (-1) : Int) - (center.count 1 : Int)))

lemma windowWeight_eq (ai hu em : Nat) :
    (if ai > 0 ∧ hu = 0 then
      if ai = 3 ∧ em = 1 then (1000 : Int)
      else if ai = 2 ∧ em = 2 then 30
      else if ai = 1 ∧ em = 3 then 5
      else 0
    else if hu > 0 ∧ ai = 0 then
      if hu = 3 ∧ em = 1 then -1200
      else if hu = 2 ∧ em = 2 then -35
      else if hu = 1 ∧ em = 3 then -5
      else 0
    else 0) =
    (if ai > 0 ∧ hu > 0 then 0
    else if ai = 3 ∧ hu = 0 ∧ em = 1 then 1000
    else if hu = 3 ∧ ai = 0 ∧ em = 1 then -1200
    else if ai = 2 ∧ hu = 0 ∧ em = 2 then 30
    else if hu = 2 ∧ ai = 0 ∧ em = 2 then -35
    else if ai = 1 ∧ hu = 0 ∧ em = 3 then 5
    else if hu = 1 ∧ ai = 0 ∧ em = 3 then -5
    else 0) := by
  by_cases hai : ai = 0 <;> by_cases hhu : hu = 0 <;>
    simp [hai, hhu, Nat.pos_of_ne_zero] <;> split_ifs <;> omega

lemma windowScore_eq_amended (b : Board) (w : List (Nat × Nat)) :
    windowScore b w = windowScoreAmended b w :=
  windowWeight_eq ((windowCells b w).count (-1)) ((windowCells b w).count 1)
    ((windowCells b w).count 0)

/-- Claim C3 fails: on a board with an opponent 2-with-2-empty window the
evaluator does not the return the value the claim's symmetric ±30 weights give. -/
theorem evaluate_ne_claimed_weights : ¬ (evaluate twoHumanB = evalClaimed twoHumanB) := by
  decide!

/-- Claim C3 (amended): for every board the evaluator returns the claim's
formula with the opponent's 2-with-2-empty weight read as -35, not -30. -/
theorem evaluate_eq_amended_weights (b : Board) : evaluate b = evalAmended b := by
  unfold evaluate evalAmended
  have h : (fun s w => s + windowScore b w) = fun s w => s + windowScoreAmended b w := by
    funext s w
    rw [windowScore_eq_amended]
  rw [h]

/-! ### Claim C4: full-board result is the plain column 3, not a sentinel -/

/-- Claim C4 fails: on a board with no legal column `best_move` returns 3,
the very value it also returns as a normal move on the empty board, so the
caller cannot distinguish "board full" from "found a move". -/
theorem bestMove_full_board_not_sentinel :
    bestMove neverClock fullB (-1) 1 = 3 ∧ bestMove neverClock emptyB (-1) 1 = 3 := by
  decide!

/-- Claim C4 (amended): on a board with no legal column `best_move` returns
the fixed fallback column 3 for every clock, player and depth ceiling; this
is an ordinary column value, not a distinct sentinel. -/
theorem bestMove_full_board_returns_three (clock : Nat → Bool) (b : Board)
    (p : Int) (maxDepth : Nat) (h : validMoves b = []) :
    bestMove clock b p maxDepth = 3 := by
  unfold bestMove
  rw [h]

theorem bestMove_full_board_returns_three_witness :
    validMoves fullB = [] ∧ bestMove neverClock fullB 1 5 = 3 :=
  ⟨by decide, bestMove_full_board_returns_three neverClock fullB 1 5 (by decide)⟩

/-! ### Claim C2: the bound kind stored in the transposition table -/

/-- Claim C2 describes the intended write-back (flag from the entry window),
but the code compares the final value against the loop-updated alpha, which
is never below the final value: here a depth-1 node whose value lies strictly
inside its entry window (-INF, INF) still stores flag 1 (UpperBound), not
0 (Exact). -/
theorem tt_writeback_flag_is_always_upper_bound :
    ((-INF) < (negamaxTT neverClock 1 ⟨emptyB, [], 0, false⟩ (-1) (-INF) INF).1 ∧
      (negamaxTT neverClock 1 ⟨emptyB, [], 0, false⟩ (-1) (-INF) INF).1 < INF) ∧
    (ttLookup (negamaxTT neverClock 1 ⟨emptyB, [], 0, false⟩ (-1) (-INF) INF).2.tt
        emptyB).map TTEntry.flag = some 1 := by
  decide!

/-! ### Claim C10: the depth-0 leaf value and the evaluator's perspective -/

/-- Claim C10: at a depth-0 leaf (no abort, no table hit, legal moves exist)
the negamax value is the heuristic evaluation for player -1 and its negation
for any other player; the evaluator itself is always from player -1's
perspective. -/
theorem negamax_leaf_value (b : Board) (tt : TT) (n : Nat) (s : Bool)
    (p alpha beta : Int) (htt : ttLookup tt b = none) (hv : validMoves b ≠ []) :
    (negamaxTT neverClock 0 ⟨b, tt, n, s⟩ p alpha beta).1 =
      if p = -1 then evaluate b else -(evaluate b) := by
  unfold negamaxTT negamaxStep timeUp neverClock ttProbe
  simp only [htt]
  simp [hv]

theorem negamax_leaf_value_witness :
    (negamaxTT neverClock 0 ⟨twoHumanB, [], 0, false⟩ 1 (-INF) INF).1 =
      if (1 : Int) = -1 then evaluate twoHumanB else -(evaluate twoHumanB) :=
  negamax_leaf_value twoHumanB [] 0 false 1 (-INF) INF (by decide) (by decide)

/-! ### Claim C8: the candidate list of a negamax node -/

lemma mem_validMoves (b : Board) (c : Nat) :
    c ∈ validMoves b ↔ c < 7 ∧ getCell b 0 c = 0 := by
  unfold validMoves
  simp [List.mem_filter, List.mem_range]

lemma validMoves_contains (b : Board) (c : Nat) (hc : c < 7) :
    (validMoves b).contains c = (getCell b 0 c == 0) := by
  by_cases h : getCell b 0 c = 0
  · have hmem : c ∈ validMoves b := (mem_validMoves b c).2 ⟨hc, h⟩
    simp [h, hmem]
  · have hmem : c ∉ validMoves b := fun hm => h ((mem_validMoves b c).1 hm).2
    simp [h, hmem]

/-- Claim C8: the candidate list a negamax node searches is the legal columns
in the static center-outward order 3,4,2,5,1,6,0, except that a cached best
move that is still legal is placed first, the remaining legal columns
following in the static order. -/
theorem node_candidate_order (b : Board) (tt : TT) :
    ((∀ e m, ttLookup tt b = some e → e.best_move = some m →
        ¬(m < 7 ∧ getCell b 0 m = 0)) →
      orderWithTTFirst (validMoves b) tt b =
        MOVE_ORDER.filter fun c => getCell b 0 c == 0) ∧
    (∀ e m, ttLookup tt b = some e → e.best_move = some m →
        m < 7 → getCell b 0 m = 0 →
      orderWithTTFirst (validMoves b) tt b =
        m :: MOVE_ORDER.filter fun c => (c != m) && (getCell b 0 c == 0)) := by
  have horder : ∀ c ∈ MOVE_ORDER, c < 7 := by decide
  have hfilter : (MOVE_ORDER.filter fun c => (validMoves b).contains c) =
      MOVE_ORDER.filter fun c => getCell b 0 c == 0 :=
    List.filter_congr fun c hc => validMoves_contains b c (horder c hc)
  constructor
  · intro hno
    unfold orderWithTTFirst
    rcases he : ttLookup tt b with _ | e
    · simp only [he]
      simpa using hfilter
    · simp only [he]
      rcases hm : e.best_move with _ | m
      · simp only [hm]
        simpa using hfilter
      · simp only [hm]
        have hmem : ¬ m ∈ validMoves b := by
          rw [mem_validMoves]; exact hno e m he hm
        have hcont : (validMoves b).contains m = false := by
          simpa using hmem
        simp only [hcont]
        simpa using hfilter
  · intro e m he hm hlt hcell
    unfold orderWithTTFirst
    have hcont : (validMoves b).contains m = true := by
      rw [validMoves_contains b m hlt]
      simp [hcell]
    simp only [he, hm, hcont, if_true]
    congr 1
    refine List.filter_congr fun c hc => ?_
    rw [validMoves_contains b c (horder c hc)]

theorem node_candidate_order_witness :
    orderWithTTFirst (validMoves emptyB) [(emptyB, ⟨2, 55, 1, some 4⟩)] emptyB =
      4 :: MOVE_ORDER.filter fun c => (c != 4) && (getCell emptyB 0 c == 0) :=
  (node_candidate_order emptyB [(emptyB, ⟨2, 55, 1, some 4⟩)]).2
    ⟨2, 55, 1, some 4⟩ 4 (by decide) rfl (by decide) (by decide)

/-! ### Claim C9: the search restores the board on every path -/

lemma set_of_getD_zero : ∀ (l : List Int) (i : Nat), l.getD i 0 = 0 → l.set i 0 = l := by
  intro l
  induction l with
  | nil => intro i _; simp
  | cons x xs ih =>
    intro i h
    cases i with
    | zero => simpa using h.symm
    | succ j =>
      simp only [List.set_cons_succ, List.cons.injEq, true_and]
      exact ih j (by simpa using h)

lemma setCell_cancel (b : Board) (r c : Nat) (p : Int) (h : getCell b r c = 0) :
    setCell (setCell b r c p) r c 0 = b := by
  unfold setCell
  rw [List.set_set]
  exact set_of_getD_zero b (r * 7 + c) h

lemma nextOpenRow_cell (b : Board) (c r : Nat) (h : nextOpenRow b c = some r) :
    getCell b r c = 0 := by
  unfold nextOpenRow at h
  have := List.find?_some h
  simpa using this

lemma nmTTLoop_board (child : SState → Int → Int → Int × SState)
    (hchild : ∀ st a b', ((child st a b').2).board = st.board) (p beta : Int) :
    ∀ (ms : List Nat) (st : SState) (v a : Int) (bm : Option Nat),
      ((nmTTLoop child p beta ms st v a bm).2.2.2).board = st.board := by
  intro ms
  induction ms with
  | nil => intro st v a bm; rfl
  | cons c rest ih =>
    intro st v a bm
    simp only [nmTTLoop]
    rcases hrow : nextOpenRow st.board c with _ | r
    · exact ih st v a bm
    · have hcell := nextOpenRow_cell _ _ _ hrow
      rcases hwin : isWin (setCell st.board r c p) p r c with _ | _ <;>
        simp only [hwin, Bool.false_eq_true, if_false, if_true] <;>
        set stc := child { st with board := setCell st.board r c p } (-beta) (-a) with hstc
      · have hbc : stc.2.board = setCell st.board r c p := hchild _ _ _
        have hback : setCell stc.2.board r c 0 = st.board := by
          rw [hbc]; exact setCell_cancel st.board r c p hcell
        split
        · simpa using hback
        · rw [ih]; simpa using hback
      · have hback : setCell (setCell st.board r c p) r c 0 = st.board :=
          setCell_cancel st.board r c p hcell
        split
        · simpa using hback
        · rw [ih]; simpa using hback






lemma negamaxTT_board (clock : Nat → Bool) :
    ∀ (d : Nat) (st : SState) (p alpha beta : Int),
      ((negamaxTT clock d st p alpha beta).2).board = st.board := by
  intro d
  induction d with
  | zero =>
    intro st p alpha beta
    show ((negamaxStep clock 0 (fun st' _ _ _ => (0, st')) st p alpha beta).2).board = st.board
    unfold negamaxStep timeUp
    dsimp only
    repeat' split
    all_goals rfl
  | succ d ih =>
    intro st p alpha beta
    show ((negamaxStep clock (d + 1) (negamaxTT clock d) st p alpha beta).2).board = st.board
    unfold negamaxStep timeUp
    dsimp only
    repeat' split
    all_goals try rfl
    all_goals exact nmTTLoop_board _ (fun st' a b' => ih st' (-p) a b') p _ _ _ _ _ _


lemma nmRootLoop_board (clock : Nat → Bool) (child : SState → Int → Int → Int × SState)
    (hchild : ∀ st a b', ((child st a b').2).board = st.board) (p : Int) :
    ∀ (ms : List Nat) (st : SState) (best : Int) (bm : Option Nat) (alpha beta : Int),
      ((nmRootLoop clock child p ms st best bm alpha beta).2.2).board = st.board := by
  intro ms
  induction ms with
  | nil => intro st best bm alpha beta; rfl
  | cons c rest ih =>
    intro st best bm alpha beta
    simp only [nmRootLoop, timeUp]
    split
    · rfl
    · rcases hrow : nextOpenRow st.board c with _ | r
      · simp only [hrow]
        exact ih _ best bm alpha beta
      · simp only [hrow]
        have hcell := nextOpenRow_cell _ _ _ hrow
        rcases hwin : isWin (setCell st.board r c p) p r c with _ | _ <;>
          simp only [hwin, Bool.false_eq_true, if_false, if_true] <;>
          set stc := child { st with board := setCell st.board r c p, ticks := st.ticks + 1 } (-beta) (-alpha) with hstc
        · have hbc : stc.2.board = setCell st.board r c p := hchild _ _ _
          have hback : setCell stc.2.board r c 0 = st.board := by
            rw [hbc]; exact setCell_cancel st.board r c p hcell
          split
          · simpa using hback
          · rw [ih]; simpa using hback
        · have hback : setCell (setCell st.board r c p) r c 0 = st.board :=
            setCell_cancel st.board r c p hcell
          split
          · simpa using hback
          · rw [ih]; simpa using hback

lemma negamaxRootTT_board (clock : Nat → Bool) (st : SState) (depth : Nat)
    (p alpha beta : Int) :
    ((negamaxRootTT clock st depth p alpha beta).2.2).board = st.board := by
  unfold negamaxRootTT
  exact nmRootLoop_board clock _
    (fun st' a b' => negamaxTT_board clock (depth - 1) st' (-p) a b') p _ st _ _ _ _

/-- Claim C9: every negamax invocation, root and interior, for every clock,
state, depth, player and window, returns the board's cell contents exactly as
they were on entry, on every path (time abort, table hit, draw, depth-0 leaf,
beta cutoff, and the make/undo move loop). -/
theorem search_preserves_board (clock : Nat → Bool) (st : SState) (p alpha beta : Int) :
    (∀ d, ((negamaxTT clock d st p alpha beta).2).board = st.board) ∧
    (∀ depth, ((negamaxRootTT clock st depth p alpha beta).2.2).board = st.board) :=
  ⟨fun d => negamaxTT_board clock d st p alpha beta,
   fun depth => negamaxRootTT_board clock st depth p alpha beta⟩

lemma nmRootLoop_move_mem (clock : Nat → Bool) (child : SState → Int → Int → Int × SState)
    (p : Int) :
    ∀ (ms : List Nat) (st : SState) (best : Int) (bm : Option Nat) (alpha beta : Int)
      (m : Nat),
      (nmRootLoop clock child p ms st best bm alpha beta).2.1 = some m →
      bm = some m ∨ m ∈ ms := by
  intro ms
  induction ms with
  | nil =>
    intro st best bm alpha beta m h
    exact Or.inl h
  | cons c rest ih =>
    intro st best bm alpha beta m h
    simp only [nmRootLoop, timeUp] at h
    rcases htu : clock st.ticks with _ | _
    · rw [htu] at h
      simp only [Bool.false_eq_true, if_false] at h
      rcases hrow : nextOpenRow st.board c with _ | r
      · simp only [hrow] at h
        rcases ih _ _ _ _ _ _ h with h' | h'
        · exact Or.inl h'
        · exact Or.inr (List.mem_cons_of_mem _ h')
      · simp only [hrow] at h
        repeat' split at h
        all_goals try simp only at h
        all_goals first
          | exact Or.inl h
          | (injection h with h2
             subst h2
             exact Or.inr (List.mem_cons_self _ _))
          | (rcases ih _ _ _ _ _ _ h with h' | h'
             · first
               | exact Or.inl h'
               | (injection h' with h2
                  subst h2
                  exact Or.inr (List.mem_cons_self _ _))
             · exact Or.inr (List.mem_cons_of_mem _ h'))
    · rw [htu] at h
      simp only [if_true] at h
      exact Or.inl h

lemma orderedMoves_subset_valid (b : Board) (c : Nat) (hc : c ∈ orderedMoves b) :
    c ∈ validMoves b := by
  unfold orderedMoves at hc
  rcases List.mem_filter.1 hc with ⟨hmem, hcell⟩
  have hlt : c < 7 := by
    fin_cases hmem <;> decide
  rw [mem_validMoves]
  simpa using And.intro hlt (by simpa using hcell)

lemma negamaxRootTT_move_mem (clock : Nat → Bool) (st : SState) (depth : Nat)
    (p alpha beta : Int) (m : Nat)
    (h : (negamaxRootTT clock st depth p alpha beta).2.1 = some m) :
    m ∈ orderedMoves st.board := by
  unfold negamaxRootTT at h
  rcases nmRootLoop_move_mem clock _ p _ _ _ _ _ _ _ h with h' | h'
  · exact absurd h' (by simp)
  · exact h'

lemma idLoop_legal (clock : Nat → Bool) (b : Board) (p : Int) :
    ∀ (depths : List Nat) (st : SState) (best : Nat) (bscore : Int),
      best ∈ validMoves b → st.board = b →
      idLoop clock p depths st best bscore ∈ validMoves b := by
  intro depths
  induction depths with
  | nil => intro st best bscore hbest hb; exact hbest
  | cons depth rest ih =>
    intro st best bscore hbest hb
    simp only [idLoop, timeUp]
    split
    · exact hbest
    · split
      · exact hbest
      · split
        · next m hm =>
            refine ih _ _ _ ?_ ?_
            · have hmem := negamaxRootTT_move_mem clock _ depth p (-INF) INF m hm
              rw [hb] at hmem
              exact orderedMoves_subset_valid b m hmem
            · rw [negamaxRootTT_board]
              exact hb
        · next hm =>
            refine ih _ _ _ hbest ?_
            rw [negamaxRootTT_board]
            exact hb

/-- Claim C6: whenever the board has at least one legal column, `best_move`
returns a legal column (one whose top cell is empty), for every clock
including one that is already expired before any search work, and for every
depth ceiling of at least 1; it never fails and never returns an illegal
column. -/
theorem bestMove_returns_legal (clock : Nat → Bool) (b : Board) (p : Int)
    (maxDepth : Nat) (hmax : 1 ≤ maxDepth) (hv : validMoves b ≠ []) :
    bestMove clock b p maxDepth ∈ validMoves b ∧
      getCell b 0 (bestMove clock b p maxDepth) = 0 := by
  have hmain : bestMove clock b p maxDepth ∈ validMoves b := by
    unfold bestMove
    rcases hval : validMoves b with _ | ⟨v, vs⟩
    · exact absurd hval hv
    · have hgoal : idLoop clock p (List.range' 1 maxDepth) ⟨b, [], 0, false⟩ v (-INF) ∈
          validMoves b :=
        idLoop_legal clock b p (List.range' 1 maxDepth) ⟨b, [], 0, false⟩ v (-INF)
          (by rw [hval]; exact List.mem_cons_self _ _) rfl
      rw [hval] at hgoal
      exact hgoal
  exact ⟨hmain, ((mem_validMoves b _).1 hmain).2⟩

theorem bestMove_returns_legal_witness :
    bestMove (fun _ => true) twoHumanB (-1) 1 ∈ validMoves twoHumanB ∧
      getCell twoHumanB 0 (bestMove (fun _ => true) twoHumanB (-1) 1) = 0 :=
  bestMove_returns_legal (fun _ => true) twoHumanB (-1) 1 (by decide) (by decide)

lemma windowScore_le (b : Board) (w : List (Nat × Nat)) :
    -1200 ≤ windowScore b w ∧ windowScore b w ≤ 1200 := by
  unfold windowScore
  dsimp only
  split_ifs <;> omega

lemma foldl_windowScore_bound (b : Board) :
    ∀ (l : List (List (Nat × Nat))) (s : Int),
      s - 1200 * l.length ≤ l.foldl (fun acc w => acc + windowScore b w) s ∧
      l.foldl (fun acc w => acc + windowScore b w) s ≤ s + 1200 * l.length := by
  intro l
  induction l with
  | nil => intro s; simp
  | cons w l ih =>
    intro s
    have hw := windowScore_le b w
    have := ih (s + windowScore b w)
    simp only [List.foldl_cons, List.length_cons]
    constructor
    · have h1 := this.1
      push_cast at h1 ⊢
      omega
    · have h2 := this.2
      push_cast at h2 ⊢
      omega

lemma evaluate_bound (b : Board) :
    -100000 ≤ evaluate b ∧ evaluate b ≤ 100000 := by
  unfold evaluate
  dsimp only
  have hlen : WINDOWS.length = 69 := by decide
  have hc1 : ((List.range 6).map fun r => getCell b r CENTER_COL).count (-1) ≤ 6 := by
    have := List.count_le_length (-1) ((List.range 6).map fun r => getCell b r CENTER_COL)
    simpa using this
  have hc2 : ((List.range 6).map fun r => getCell b r CENTER_COL).count 1 ≤ 6 := by
    have := List.count_le_length 1 ((List.range 6).map fun r => getCell b r CENTER_COL)
    simpa using this
  have hfold := foldl_windowScore_bound b WINDOWS
    (6 * ((((List.range 6).map fun r => getCell b r CENTER_COL).count (-1) : Int) -
      (((List.range 6).map fun r => getCell b r CENTER_COL).count 1 : Int)))
  rw [hlen] at hfold
  constructor <;> [have h := hfold.1; have h := hfold.2] <;> omega

lemma negamaxTT0_state (st : SState) (p alpha beta : Int) :
    (negamaxTT neverClock 0 st p alpha beta).2 = { st with ticks := st.ticks + 1 } := by
  show (negamaxStep neverClock 0 (fun st' _ _ _ => (0, st')) st p alpha beta).2 =
    { st with ticks := st.ticks + 1 }
  unfold negamaxStep timeUp neverClock
  dsimp only
  repeat' split
  all_goals first
    | rfl
    | simp_all

lemma negamaxTT0_value (st : SState) (p alpha beta : Int)
    (htt : ttLookup st.tt st.board = none) :
    -WINSCORE < (negamaxTT neverClock 0 st p alpha beta).1 ∧
      (negamaxTT neverClock 0 st p alpha beta).1 < WINSCORE := by
  have hev := evaluate_bound st.board
  have hcase : (negamaxTT neverClock 0 st p alpha beta).1 = 0 ∨
      (negamaxTT neverClock 0 st p alpha beta).1 =
        evaluate st.board * (if p = -1 then 1 else -1) := by
    show (negamaxStep neverClock 0 (fun st' _ _ _ => (0, st')) st p alpha beta).1 = 0 ∨
      (negamaxStep neverClock 0 (fun st' _ _ _ => (0, st')) st p alpha beta).1 =
        evaluate st.board * (if p = -1 then 1 else -1)
    unfold negamaxStep timeUp neverClock ttProbe
    simp only [htt]
    split
    · exact Or.inl rfl
    · split
      · exact Or.inl rfl
      · exact Or.inr rfl
  rcases hcase with h | h <;> rw [h]
  · constructor <;> decide
  · split_ifs <;> unfold WINSCORE <;> omega

lemma ttLookup_nil (k : Board) : ttLookup [] k = none := rfl

lemma nextOpenRow_of_legal (b : Board) (c : Nat) (h : getCell b 0 c = 0) :
    ∃ r, nextOpenRow b c = some r := by
  unfold nextOpenRow
  have hs : (((List.range 6).reverse.find? fun r => getCell b r c == 0)).isSome := by
    rw [List.find?_isSome]
    exact ⟨0, by decide, by simp [h]⟩
  rcases ho : ((List.range 6).reverse.find? fun r => getCell b r c == 0) with _ | r
  · rw [ho] at hs; simp at hs
  · exact ⟨r, rfl⟩

lemma rootLoopS2 (p : Int) :
    ∀ (ms : List Nat) (st : SState) (best : Int) (bm : Option Nat) (alpha : Int),
      st.tt = [] → st.stop = false →
      (∀ c ∈ ms, c ∈ validMoves st.board) →
      WINSCORE ≤ best → alpha < INF →
      (nmRootLoop neverClock (fun st' a b' => negamaxTT neverClock 0 st' (-p) a b')
          p ms st best bm alpha INF).2.1 = bm ∧
      (nmRootLoop neverClock (fun st' a b' => negamaxTT neverClock 0 st' (-p) a b')
          p ms st best bm alpha INF).2.2.stop = false := by
  intro ms
  induction ms with
  | nil => intro st best bm alpha htt hstop hleg hbest halpha; exact ⟨rfl, hstop⟩
  | cons c rest ih =>
    intro st best bm alpha htt hstop hleg hbest halpha
    have hcleg := hleg c (List.mem_cons_self _ _)
    have hcell0 : getCell st.board 0 c = 0 := ((mem_validMoves _ _).1 hcleg).2
    rcases nextOpenRow_of_legal st.board c hcell0 with ⟨r, hrow⟩
    simp only [nmRootLoop, timeUp, neverClock, Bool.false_eq_true, if_false, hrow]
    have hcell : getCell st.board r c = 0 := nextOpenRow_cell _ _ _ hrow
    have hrestleg : ∀ st' : SState, st'.board = st.board →
        ∀ c' ∈ rest, c' ∈ validMoves st'.board := by
      intro st' hb' c' hc'
      rw [hb']
      exact hleg c' (List.mem_cons_of_mem _ hc')
    rcases hwin : isWin (setCell st.board r c p) p r c with _ | _ <;>
      simp only [hwin, Bool.false_eq_true, if_false, if_true]
    · -- no immediate win: score from the depth-0 child
      have hv := negamaxTT0_value
        { st with board := setCell st.board r c p, ticks := st.ticks + 1 }
        (-p) (-INF) (-alpha) (by simp [htt, ttLookup_nil])
      rw [negamaxTT0_state]
      set v := (negamaxTT neverClock 0
        { st with board := setCell st.board r c p, ticks := st.ticks + 1 }
        (-p) (-INF) (-alpha)).1 with hvdef
      have hslt : -v < WINSCORE := by
        have := hv.1
        omega
      have hnotgt : ¬ (-v > best) := by omega
      have hcut : ¬ (alpha ⊔ -v ≥ INF) := by
        have h1 : alpha ⊔ -v < INF := by
          have : WINSCORE < INF := by decide
          omega
        omega
      simp only [hnotgt, if_false, hcut, sup_le_iff]
      have hb3 : (setCell (setCell st.board r c p) r c 0) = st.board :=
        setCell_cancel st.board r c p hcell
      refine ih _ best bm _ (by simp [htt]) (by simp [hstop]) ?_ hbest ?_
      · intro c' hc'
        simp only [hb3]
        exact hleg c' (List.mem_cons_of_mem _ hc')
      · have : WINSCORE < INF := by decide
        omega
    · -- immediate win: score WINSCORE, still not better than best
      have hnotgt : ¬ ((WINSCORE : Int) > best) := by omega
      have hcut : ¬ (alpha ⊔ WINSCORE ≥ INF) := by
        have : WINSCORE < INF := by decide
        omega
      simp only [hnotgt, if_false, hcut]
      have hb3 : (setCell (setCell st.board r c p) r c 0) = st.board :=
        setCell_cancel st.board r c p hcell
      refine ih _ best bm _ (by simp [htt]) (by simp [hstop]) ?_ hbest ?_
      · intro c' hc'
        simp only [hb3]
        exact hleg c' (List.mem_cons_of_mem _ hc')
      · have : WINSCORE < INF := by decide
        omega

/-- Modelled from the claim's words (C5): column `c` is an immediately
playable winning move for `p` on `b`: the column is legal and dropping into
its lowest empty cell completes a four-in-a-row. -/
def playableWin (b : Board) (p : Int) (c : Nat) : Bool :=
  decide (c < 7) && (getCell b 0 c == 0) &&
    (match nextOpenRow b c with
     | some r => isWin (setCell b r c p) p r c
     | none => false)

lemma rootLoopS1 (b : Board) (p : Int) :
    ∀ (ms : List Nat) (st : SState) (best : Int) (bm : Option Nat) (alpha : Int)
      (w0 : Nat),
      st.board = b → st.tt = [] → st.stop = false →
      (∀ c ∈ ms, c ∈ validMoves b) →
      best < WINSCORE → alpha < INF →
      (ms.find? fun c => playableWin b p c) = some w0 →
      (nmRootLoop neverClock (fun st' a b' => negamaxTT neverClock 0 st' (-p) a b')
          p ms st best bm alpha INF).2.1 = some w0 ∧
      (nmRootLoop neverClock (fun st' a b' => negamaxTT neverClock 0 st' (-p) a b')
          p ms st best bm alpha INF).2.2.stop = false := by
  intro ms
  induction ms with
  | nil => intro st best bm alpha w0 hb htt hstop hleg hbest halpha hfind; cases hfind
  | cons c rest ih =>
    intro st best bm alpha w0 hb htt hstop hleg hbest halpha hfind
    have hcleg := hleg c (List.mem_cons_self _ _)
    have hclt : c < 7 := ((mem_validMoves _ _).1 hcleg).1
    have hcell0 : getCell b 0 c = 0 := ((mem_validMoves _ _).1 hcleg).2
    rcases nextOpenRow_of_legal b c hcell0 with ⟨r, hrow⟩
    have hrowst : nextOpenRow st.board c = some r := by rw [hb]; exact hrow
    simp only [nmRootLoop, timeUp, neverClock, Bool.false_eq_true, if_false, hrowst]
    have hcell : getCell st.board r c = 0 := nextOpenRow_cell _ _ _ hrowst
    have hPc : playableWin b p c = isWin (setCell b r c p) p r c := by
      unfold playableWin
      rw [hrow]
      simp [hclt, hcell0]
    have hb2 : setCell st.board r c p = setCell b r c p := by rw [hb]
    have hb3 : (setCell (setCell st.board r c p) r c 0) = st.board :=
      setCell_cancel st.board r c p hcell
    rcases hwin : isWin (setCell st.board r c p) p r c with _ | _ <;>
      simp only [hwin, Bool.false_eq_true, if_false, if_true]
    · -- head is not a winning move: the first win sits in the tail
      have hPcf : playableWin b p c = false := by
        rw [hPc, ← hb2]
        exact hwin
      have hfind' : (rest.find? fun c => playableWin b p c) = some w0 := by
        rw [List.find?_cons_of_neg _ (by simp [hPcf])] at hfind
        exact hfind
      have hv := negamaxTT0_value
        { st with board := setCell st.board r c p, ticks := st.ticks + 1 }
        (-p) (-INF) (-alpha) (by simp [htt, ttLookup_nil])
      rw [negamaxTT0_state]
      set v := (negamaxTT neverClock 0
        { st with board := setCell st.board r c p, ticks := st.ticks + 1 }
        (-p) (-INF) (-alpha)).1 with hvdef
      have hcut : ¬ (alpha ⊔ -v ≥ INF) := by
        have h1 : WINSCORE < INF := by decide
        have := hv.1
        omega
      simp only [hcut, if_false]
      by_cases hgt : -v > best <;> simp only [hgt, if_true, if_false]
      · refine ih _ _ _ _ _ (by simpa using hb3.trans hb) (by simp [htt])
          (by simp [hstop]) (fun c' hc' => hleg c' (List.mem_cons_of_mem _ hc'))
          ?_ ?_ hfind'
        · have := hv.1
          omega
        · have h1 : WINSCORE < INF := by decide
          have := hv.1
          omega
      · refine ih _ _ _ _ _ (by simpa using hb3.trans hb) (by simp [htt])
          (by simp [hstop]) (fun c' hc' => hleg c' (List.mem_cons_of_mem _ hc'))
          hbest ?_ hfind'
        have h1 : WINSCORE < INF := by decide
        have := hv.1
        omega
    · -- head wins immediately: it is the first win and stays the best move
      have hPct : playableWin b p c = true := by
        rw [hPc, ← hb2]
        exact hwin
      have hw0 : w0 = c := by
        rw [List.find?_cons_of_pos _ (by simp [hPct])] at hfind
        exact (Option.some_inj.1 hfind).symm
      subst hw0
      have hgt : (WINSCORE : Int) > best := hbest
      have hcut : ¬ (alpha ⊔ WINSCORE ≥ INF) := by
        have : WINSCORE < INF := by decide
        omega
      simp only [hgt, if_true, hcut, if_false]
      exact rootLoopS2 p rest _ WINSCORE (some w0) _ (by simp [htt]) (by simp [hstop])
        (by
          intro c' hc'
          simp only [hb3]
          rw [hb]
          exact hleg c' (List.mem_cons_of_mem _ hc'))
        le_rfl
        (by
          have : WINSCORE < INF := by decide
          omega)

lemma find?_filter_of_imp {α : Type} (P Q : α → Bool)
    (h : ∀ a, P a = true → Q a = true) :
    ∀ l : List α, (l.filter Q).find? P = l.find? P := by
  intro l
  induction l with
  | nil => rfl
  | cons c rest ih =>
    by_cases hq : Q c = true
    · rw [List.filter_cons_of_pos hq]
      by_cases hp : P c = true
      · rw [List.find?_cons_of_pos _ hp, List.find?_cons_of_pos _ hp]
      · rw [List.find?_cons_of_neg _ (by simp [hp]),
          List.find?_cons_of_neg _ (by simp [hp]), ih]
    · have hp : P c = false := by
        rcases hP : P c with _ | _
        · rfl
        · exact absurd (h c hP) hq
      rw [List.filter_cons_of_neg (by simp [hq]),
        List.find?_cons_of_neg _ (by simp [hp]), ih]

/-- Claim C5 (amended): with a never-expiring budget and depth ceiling 1,
`best_move` returns the first immediately-winning column in the move order
3,4,2,5,1,6,0 (stated as: scanning 3,4,2,5,1,6,0 for the first immediately
winning column finds exactly the returned column); in particular, when
exactly one column wins immediately, it returns that column. -/
theorem bestMove_depth1_returns_first_win (b : Board) (p : Int) (w : Nat)
    (hw : playableWin b p w = true) :
    playableWin b p (bestMove neverClock b p 1) = true ∧
    (MOVE_ORDER.find? fun c => playableWin b p c)
      = some (bestMove neverClock b p 1) ∧
    ((∀ w', w' < 7 → playableWin b p w' = true → w' = w) →
      bestMove neverClock b p 1 = w) := by
  have hwlt : w < 7 := by
    unfold playableWin at hw
    simp only [Bool.and_eq_true, decide_eq_true_eq] at hw
    exact hw.1.1
  have hwcell : getCell b 0 w = 0 := by
    unfold playableWin at hw
    simp only [Bool.and_eq_true, decide_eq_true_eq, beq_iff_eq] at hw
    exact hw.1.2
  have hwmem : w ∈ validMoves b := (mem_validMoves b w).2 ⟨hwlt, hwcell⟩
  have hvm : validMoves b ≠ [] := List.ne_nil_of_mem hwmem
  have hword : w ∈ orderedMoves b := by
    unfold orderedMoves
    refine List.mem_filter.2 ⟨?_, by simp [hwcell]⟩
    interval_cases w <;> decide
  have hfindSome : (((orderedMoves b).find? fun c => playableWin b p c)).isSome := by
    rw [List.find?_isSome]
    exact ⟨w, hword, hw⟩
  obtain ⟨m0, hfind⟩ := Option.isSome_iff_exists.1 hfindSome
  have hm0P : playableWin b p m0 = true := List.find?_some hfind
  have hid : ∀ (v : Nat) (bscore : Int),
      idLoop neverClock p [1] ⟨b, [], 0, false⟩ v bscore = m0 := by
    intro v bscore
    simp only [idLoop, timeUp, neverClock, Bool.false_eq_true, if_false]
    unfold negamaxRootTT
    simp only [Nat.sub_self]
    have hroot := rootLoopS1 b p (orderedMoves b) ⟨b, [], 1, false⟩ (-INF) none (-INF) m0
      rfl rfl rfl (fun c hc => orderedMoves_subset_valid b c hc)
      (by decide) (by decide) hfind
    rw [hroot.2, hroot.1]
    simp
  have hbm : bestMove neverClock b p 1 = m0 := by
    unfold bestMove
    rcases hval : validMoves b with _ | ⟨v, vs⟩
    · exact absurd hval hvm
    · exact hid v (-INF)
  have hfindM : (MOVE_ORDER.find? fun c => playableWin b p c) = some m0 := by
    have hQ : ∀ c, playableWin b p c = true → (getCell b 0 c == 0) = true := by
      intro c hc
      unfold playableWin at hc
      simp only [Bool.and_eq_true] at hc
      exact hc.1.2
    rw [← find?_filter_of_imp _ _ hQ MOVE_ORDER]
    exact hfind
  refine ⟨?_, ?_, ?_⟩
  · rw [hbm]
    exact hm0P
  · rw [hbm]
    exact hfindM
  · intro huniq
    rw [hbm]
    have hm0lt : m0 < 7 := by
      unfold playableWin at hm0P
      simp only [Bool.and_eq_true, decide_eq_true_eq] at hm0P
      exact hm0P.1.1
    exact huniq m0 hm0lt hm0P

/-- A board on which column 5 completes a vertical four for player -1 while
column 3 instead starts a forced win two moves later. -/
def bC5 : Board :=
  [-1,1,0,0,0,0,0, 1,-1,0,0,0,0,0, -1,1,0,0,0,0,0,
   1,-1,0,0,0,-1,-1, -1,1,0,0,0,-1,-1, 1,-1,0,0,0,-1,-1]

/-- The same position with the column-6 threat removed, so column 5 is the
unique immediately winning column. -/
def bW : Board :=
  [-1,1,0,0,0,0,0, 1,-1,0,0,0,0,0, -1,1,0,0,0,0,0,
   1,-1,0,0,0,-1,0, -1,1,0,0,0,-1,0, 1,-1,0,0,0,-1,0]

/-- Claim C5 fails even with a budget that never expires: on `bC5` column 5
wins immediately and column 3 does not, yet `best_move` at depth ceiling 3
returns 3, because the depth-3 pass scores the forced win behind column 3 with
the same undiscounted win score and column 3 comes first in the move order. -/
theorem bestMove_misses_immediate_win :
    playableWin bC5 (-1) 5 = true ∧ playableWin bC5 (-1) 3 = false ∧
    bestMove neverClock bC5 (-1) 3 = 3 := by
  decide!

theorem bestMove_depth1_returns_first_win_witness :
    (playableWin bW (-1) (bestMove neverClock bW (-1) 1) = true ∧
      (MOVE_ORDER.find? fun c => playableWin bW (-1) c)
        = some (bestMove neverClock bW (-1) 1) ∧
      bestMove neverClock bW (-1) 1 = 5) ∧
    (MOVE_ORDER.find? fun c => playableWin bC5 (-1) c)
      = some (bestMove neverClock bC5 (-1) 1) :=
  ⟨⟨(bestMove_depth1_returns_first_win bW (-1) 5 (by decide)).1,
    (bestMove_depth1_returns_first_win bW (-1) 5 (by decide)).2.1,
    (bestMove_depth1_returns_first_win bW (-1) 5 (by decide)).2.2 (by decide)⟩,
   (bestMove_depth1_returns_first_win bC5 (-1) 5 (by decide)).2.1⟩

lemma countDir_sound (b : Board) (p : Int) (dr dc : Int) :
    ∀ (f : Nat) (rr cc : Int) (i : Nat), i < countDir b p f rr cc dr dc →
      0 ≤ rr + i * dr ∧ rr + i * dr < 6 ∧ 0 ≤ cc + i * dc ∧ cc + i * dc < 7 ∧
        getCell b (rr + i * dr).toNat (cc + i * dc).toNat = p := by
  intro f
  induction f with
  | zero =>
    intro rr cc i hi
    simp [countDir] at hi
  | succ f ih =>
    intro rr cc i hi
    rw [countDir] at hi
    split at hi
    · next hcond =>
      rcases i with _ | j
      · simpa using hcond
      · have hj := ih (rr + dr) (cc + dc) j (by omega)
        have e1 : rr + dr + j * dr = rr + (j + 1 : Nat) * dr := by push_cast; ring
        have e2 : cc + dc + j * dc = cc + (j + 1 : Nat) * dc := by push_cast; ring
        rw [e1, e2] at hj
        exact hj
    · omega

lemma countDir_complete (b : Board) (p : Int) (dr dc : Int) :
    ∀ (f : Nat) (rr cc : Int) (m : Nat), m ≤ f →
      (∀ i : Nat, i < m →
        0 ≤ rr + i * dr ∧ rr + i * dr < 6 ∧ 0 ≤ cc + i * dc ∧ cc + i * dc < 7 ∧
          getCell b (rr + i * dr).toNat (cc + i * dc).toNat = p) →
      m ≤ countDir b p f rr cc dr dc := by
  intro f
  induction f with
  | zero => intro rr cc m hm hcond; omega
  | succ f ih =>
    intro rr cc m hm hcond
    rcases m with _ | k
    · omega
    · have h0 := hcond 0 (by omega)
      simp only [Nat.cast_zero, zero_mul, add_zero] at h0
      rw [countDir]
      rw [if_pos ⟨h0.1, h0.2.1, h0.2.2.1, h0.2.2.2.1, h0.2.2.2.2⟩]
      have hk : k ≤ countDir b p f (rr + dr) (cc + dc) dr dc := by
        refine ih (rr + dr) (cc + dc) k (by omega) ?_
        intro i hik
        have := hcond (i + 1) (by omega)
        have e1 : rr + (i + 1 : Nat) * dr = rr + dr + i * dr := by push_cast; ring
        have e2 : cc + (i + 1 : Nat) * dc = cc + dc + i * dc := by push_cast; ring
        rw [e1, e2] at this
        exact this
      omega

lemma mem_WINDOWS_horiz (r0 c0 : Nat) (hr : r0 < 6) (hc : c0 < 4) :
    ((List.range 4).map fun i => (r0, c0 + i)) ∈ WINDOWS := by
  unfold WINDOWS
  simp only [List.mem_append, List.mem_flatMap, List.mem_map, List.mem_range]
  exact Or.inl (Or.inl (Or.inl ⟨r0, hr, ⟨c0, hc, rfl⟩⟩))

lemma mem_WINDOWS_vert (r0 c0 : Nat) (hr : r0 < 3) (hc : c0 < 7) :
    ((List.range 4).map fun i => (r0 + i, c0)) ∈ WINDOWS := by
  unfold WINDOWS
  simp only [List.mem_append, List.mem_flatMap, List.mem_map, List.mem_range]
  exact Or.inl (Or.inl (Or.inr ⟨r0, hr, ⟨c0, hc, rfl⟩⟩))

lemma mem_WINDOWS_diag1 (r0 c0 : Nat) (hr : r0 < 3) (hc : c0 < 4) :
    ((List.range 4).map fun i => (r0 + i, c0 + i)) ∈ WINDOWS := by
  unfold WINDOWS
  simp only [List.mem_append, List.mem_flatMap, List.mem_map, List.mem_range]
  exact Or.inl (Or.inr ⟨r0, hr, ⟨c0, hc, rfl⟩⟩)

lemma mem_WINDOWS_diag2 (r0 c0 : Nat) (hr : r0 < 3) (hc : c0 < 4) :
    ((List.range 4).map fun i => (r0 + 3 - i, c0 + i)) ∈ WINDOWS := by
  unfold WINDOWS
  simp only [List.mem_append, List.mem_flatMap, List.mem_map, List.mem_range]
  exact Or.inr ⟨r0, hr, ⟨c0, hc, rfl⟩⟩

lemma WINDOWS_cases (w : List (Nat × Nat)) (hw : w ∈ WINDOWS) :
    (∃ r0 c0, r0 < 6 ∧ c0 < 4 ∧ w = (List.range 4).map fun i => (r0, c0 + i)) ∨
    (∃ r0 c0, r0 < 3 ∧ c0 < 7 ∧ w = (List.range 4).map fun i => (r0 + i, c0)) ∨
    (∃ r0 c0, r0 < 3 ∧ c0 < 4 ∧ w = (List.range 4).map fun i => (r0 + i, c0 + i)) ∨
    (∃ r0 c0, r0 < 3 ∧ c0 < 4 ∧ w = (List.range 4).map fun i => (r0 + 3 - i, c0 + i)) := by
  unfold WINDOWS at hw
  simp only [List.mem_append, List.mem_flatMap, List.mem_map, List.mem_range] at hw
  rcases hw with ((⟨r0, hr, c0, hc, hw⟩ | ⟨r0, hr, c0, hc, hw⟩) | ⟨r0, hr, c0, hc, hw⟩) |
    ⟨r0, hr, c0, hc, hw⟩
  · exact Or.inl ⟨r0, c0, hr, hc, hw.symm⟩
  · exact Or.inr (Or.inl ⟨r0, c0, hr, hc, hw.symm⟩)
  · exact Or.inr (Or.inr (Or.inl ⟨r0, c0, hr, hc, hw.symm⟩))
  · exact Or.inr (Or.inr (Or.inr ⟨r0, c0, hr, hc, hw.symm⟩))

/-- Modelled from the claim's words (C7): some catalogue window contains the
cell and is entirely occupied by the player. -/
def winByWindow (b : Board) (p : Int) (r c : Nat) : Bool :=
  WINDOWS.any fun w => w.contains (r, c) && w.all fun q => getCell b q.1 q.2 == p

lemma winByWindow_of_mem (b : Board) (p : Int) (r c : Nat)
    (w : List (Nat × Nat)) (hw : w ∈ WINDOWS) (hmem : (r, c) ∈ w)
    (hall : ∀ q ∈ w, getCell b q.1 q.2 = p) : winByWindow b p r c = true := by
  unfold winByWindow
  rw [List.any_eq_true]
  refine ⟨w, hw, ?_⟩
  rw [Bool.and_eq_true]
  constructor
  · simpa using hmem
  · rw [List.all_eq_true]
    intro q hq
    simpa using hall q hq

lemma horiz_window_exists (b : Board) (p : Int) (r c : Nat) (hr : r < 6) (hc : c < 7)
    (hocc : getCell b r c = p)
    (h4 : (countDir b p 8 r c 0 1 : Int) + (countDir b p 8 r c 0 (-1) : Int) - 1 ≥ 4) :
    winByWindow b p r c = true := by
  have hsf := countDir_sound b p 0 1 8 r c
  have hsb := countDir_sound b p 0 (-1) 8 r c
  have hcf := countDir_complete b p 0 1 8 (r : Int) (c : Int) 1 (by omega)
    (fun i hi => by
      interval_cases i
      refine ⟨by omega, by omega, by omega, by omega, ?_⟩
      simpa using hocc)
  have hcb := countDir_complete b p 0 (-1) 8 (r : Int) (c : Int) 1 (by omega)
    (fun i hi => by
      interval_cases i
      refine ⟨by omega, by omega, by omega, by omega, ?_⟩
      simpa using hocc)
  obtain ⟨f, hf⟩ : ∃ f, countDir b p 8 (r : Int) (c : Int) 0 1 = f := ⟨_, rfl⟩
  obtain ⟨bk, hbk⟩ : ∃ k, countDir b p 8 (r : Int) (c : Int) 0 (-1) = k := ⟨_, rfl⟩
  rw [hf, hbk] at h4
  rw [hf] at hsf hcf
  rw [hbk] at hsb hcb
  obtain ⟨a, ha3, habk, haf⟩ : ∃ a, a ≤ 3 ∧ a ≤ bk - 1 ∧ 3 - a < f := by
    refine ⟨min 3 (bk - 1), min_le_left _ _, min_le_right _ _, ?_⟩
    rcases min_choice 3 (bk - 1) with hm | hm <;> omega
  have hcbd : (bk : Int) - 1 ≤ c := by
    have := hsb (bk - 1) (by omega)
    simp only [mul_zero, add_zero, mul_neg, mul_one] at this
    omega
  have hac : a ≤ c := by omega
  have hwin : ((List.range 4).map fun i => (r, (c - a) + i)) ∈ WINDOWS := by
    refine mem_WINDOWS_horiz r _ hr ?_
    have := hsf (3 - a) (by omega)
    simp only [mul_zero, add_zero, mul_one] at this
    omega
  refine winByWindow_of_mem b p r c _ hwin ?_ ?_
  · simp only [List.mem_map, List.mem_range]
    exact ⟨a, by omega, by simp only [Prod.mk.injEq]; constructor <;> first | trivial | omega⟩
  · intro q hq
    simp only [List.mem_map, List.mem_range] at hq
    obtain ⟨t, ht, hq⟩ := hq
    subst hq
    by_cases hta : a ≤ t
    · have := (hsf (t - a) (by omega)).2.2.2.2
      convert this using 2 <;> omega
    · have := (hsb (a - t) (by omega)).2.2.2.2
      convert this using 2 <;> omega

lemma vert_window_exists (b : Board) (p : Int) (r c : Nat) (hr : r < 6) (hc : c < 7)
    (hocc : getCell b r c = p)
    (h4 : (countDir b p 8 r c 1 0 : Int) + (countDir b p 8 r c (-1) 0 : Int) - 1 ≥ 4) :
    winByWindow b p r c = true := by
  have hsf := countDir_sound b p 1 0 8 r c
  have hsb := countDir_sound b p (-1) 0 8 r c
  have hcf := countDir_complete b p 1 0 8 (r : Int) (c : Int) 1 (by omega)
    (fun i hi => by
      interval_cases i
      refine ⟨by omega, by omega, by omega, by omega, ?_⟩
      simpa using hocc)
  have hcb := countDir_complete b p (-1) 0 8 (r : Int) (c : Int) 1 (by omega)
    (fun i hi => by
      interval_cases i
      refine ⟨by omega, by omega, by omega, by omega, ?_⟩
      simpa using hocc)
  obtain ⟨f, hf⟩ : ∃ f, countDir b p 8 (r : Int) (c : Int) 1 0 = f := ⟨_, rfl⟩
  obtain ⟨bk, hbk⟩ : ∃ k, countDir b p 8 (r : Int) (c : Int) (-1) 0 = k := ⟨_, rfl⟩
  rw [hf, hbk] at h4
  rw [hf] at hsf hcf
  rw [hbk] at hsb hcb
  obtain ⟨a, ha3, habk, haf⟩ : ∃ a, a ≤ 3 ∧ a ≤ bk - 1 ∧ 3 - a < f := by
    refine ⟨min 3 (bk - 1), min_le_left _ _, min_le_right _ _, ?_⟩
    rcases min_choice 3 (bk - 1) with hm | hm <;> omega
  have hrbd : (bk : Int) - 1 ≤ r := by
    have := hsb (bk - 1) (by omega)
    simp only [mul_zero, add_zero, mul_neg, mul_one] at this
    omega
  have har : a ≤ r := by omega
  have hwin : ((List.range 4).map fun i => ((r - a) + i, c)) ∈ WINDOWS := by
    refine mem_WINDOWS_vert _ c ?_ hc
    have := hsf (3 - a) (by omega)
    simp only [mul_zero, add_zero, mul_one] at this
    omega
  refine winByWindow_of_mem b p r c _ hwin ?_ ?_
  · simp only [List.mem_map, List.mem_range]
    exact ⟨a, by omega, by simp only [Prod.mk.injEq]; constructor <;> first | trivial | omega⟩
  · intro q hq
    simp only [List.mem_map, List.mem_range] at hq
    obtain ⟨t, ht, hq⟩ := hq
    subst hq
    by_cases hta : a ≤ t
    · have := (hsf (t - a) (by omega)).2.2.2.2
      convert this using 2 <;> omega
    · have := (hsb (a - t) (by omega)).2.2.2.2
      convert this using 2 <;> omega

lemma diag1_window_exists (b : Board) (p : Int) (r c : Nat) (hr : r < 6) (hc : c < 7)
    (hocc : getCell b r c = p)
    (h4 : (countDir b p 8 r c 1 1 : Int) + (countDir b p 8 r c (-1) (-1) : Int) - 1 ≥ 4) :
    winByWindow b p r c = true := by
  have hsf := countDir_sound b p 1 1 8 r c
  have hsb := countDir_sound b p (-1) (-1) 8 r c
  have hcf := countDir_complete b p 1 1 8 (r : Int) (c : Int) 1 (by omega)
    (fun i hi => by
      interval_cases i
      refine ⟨by omega, by omega, by omega, by omega, ?_⟩
      simpa using hocc)
  have hcb := countDir_complete b p (-1) (-1) 8 (r : Int) (c : Int) 1 (by omega)
    (fun i hi => by
      interval_cases i
      refine ⟨by omega, by omega, by omega, by omega, ?_⟩
      simpa using hocc)
  obtain ⟨f, hf⟩ : ∃ f, countDir b p 8 (r : Int) (c : Int) 1 1 = f := ⟨_, rfl⟩
  obtain ⟨bk, hbk⟩ : ∃ k, countDir b p 8 (r : Int) (c : Int) (-1) (-1) = k := ⟨_, rfl⟩
  rw [hf, hbk] at h4
  rw [hf] at hsf hcf
  rw [hbk] at hsb hcb
  obtain ⟨a, ha3, habk, haf⟩ : ∃ a, a ≤ 3 ∧ a ≤ bk - 1 ∧ 3 - a < f := by
    refine ⟨min 3 (bk - 1), min_le_left _ _, min_le_right _ _, ?_⟩
    rcases min_choice 3 (bk - 1) with hm | hm <;> omega
  have hbd : (bk : Int) - 1 ≤ r ∧ (bk : Int) - 1 ≤ c := by
    have := hsb (bk - 1) (by omega)
    simp only [mul_neg, mul_one] at this
    constructor <;> omega
  have har : a ≤ r := by omega
  have hac : a ≤ c := by omega
  have hwin : ((List.range 4).map fun i => ((r - a) + i, (c - a) + i)) ∈ WINDOWS := by
    have := hsf (3 - a) (by omega)
    simp only [mul_one] at this
    refine mem_WINDOWS_diag1 _ _ ?_ ?_ <;> omega
  refine winByWindow_of_mem b p r c _ hwin ?_ ?_
  · simp only [List.mem_map, List.mem_range]
    exact ⟨a, by omega, by simp only [Prod.mk.injEq]; constructor <;> first | trivial | omega⟩
  · intro q hq
    simp only [List.mem_map, List.mem_range] at hq
    obtain ⟨t, ht, hq⟩ := hq
    subst hq
    by_cases hta : a ≤ t
    · have := (hsf (t - a) (by omega)).2.2.2.2
      convert this using 2 <;> omega
    · have := (hsb (a - t) (by omega)).2.2.2.2
      convert this using 2 <;> omega

lemma diag2_window_exists (b : Board) (p : Int) (r c : Nat) (hr : r < 6) (hc : c < 7)
    (hocc : getCell b r c = p)
    (h4 : (countDir b p 8 r c (-1) 1 : Int) + (countDir b p 8 r c 1 (-1) : Int) - 1 ≥ 4) :
    winByWindow b p r c = true := by
  have hsf := countDir_sound b p (-1) 1 8 r c
  have hsb := countDir_sound b p 1 (-1) 8 r c
  have hcf := countDir_complete b p (-1) 1 8 (r : Int) (c : Int) 1 (by omega)
    (fun i hi => by
      interval_cases i
      refine ⟨by omega, by omega, by omega, by omega, ?_⟩
      simpa using hocc)
  have hcb := countDir_complete b p 1 (-1) 8 (r : Int) (c : Int) 1 (by omega)
    (fun i hi => by
      interval_cases i
      refine ⟨by omega, by omega, by omega, by omega, ?_⟩
      simpa using hocc)
  obtain ⟨f, hf⟩ : ∃ f, countDir b p 8 (r : Int) (c : Int) (-1) 1 = f := ⟨_, rfl⟩
  obtain ⟨bk, hbk⟩ : ∃ k, countDir b p 8 (r : Int) (c : Int) 1 (-1) = k := ⟨_, rfl⟩
  rw [hf, hbk] at h4
  rw [hf] at hsf hcf
  rw [hbk] at hsb hcb
  obtain ⟨a, ha3, habk, haf⟩ : ∃ a, a ≤ 3 ∧ a ≤ bk - 1 ∧ 3 - a < f := by
    refine ⟨min 3 (bk - 1), min_le_left _ _, min_le_right _ _, ?_⟩
    rcases min_choice 3 (bk - 1) with hm | hm <;> omega
  have hbd : (r : Int) + ((bk : Int) - 1) < 6 ∧ (bk : Int) - 1 ≤ c := by
    have := hsb (bk - 1) (by omega)
    simp only [mul_neg, mul_one] at this
    constructor <;> omega
  have hfd : (r : Int) - ((3 : Int) - a) ≥ 0 ∧ (c : Int) + ((3 : Int) - a) < 7 := by
    have := hsf (3 - a) (by omega)
    simp only [mul_neg, mul_one] at this
    constructor <;> omega
  have hac : a ≤ c := by omega
  have hra3 : 3 ≤ r + a := by omega
  have hwin : ((List.range 4).map fun i => ((r + a - 3) + 3 - i, (c - a) + i)) ∈ WINDOWS := by
    refine mem_WINDOWS_diag2 _ _ ?_ ?_ <;> omega
  refine winByWindow_of_mem b p r c _ hwin ?_ ?_
  · simp only [List.mem_map, List.mem_range]
    exact ⟨a, by omega, by simp only [Prod.mk.injEq]; constructor <;> first | trivial | omega⟩
  · intro q hq
    simp only [List.mem_map, List.mem_range] at hq
    obtain ⟨t, ht, hq⟩ := hq
    subst hq
    by_cases hta : a ≤ t
    · have := (hsf (t - a) (by omega)).2.2.2.2
      convert this using 2 <;> omega
    · have := (hsb (a - t) (by omega)).2.2.2.2
      convert this using 2 <;> omega

lemma horiz_counts (b : Board) (p : Int) (r0 c0 a : Nat) (hr0 : r0 < 6) (hc0 : c0 < 4)
    (ha : a < 4)
    (hall : ∀ q ∈ (List.range 4).map (fun i => (r0, c0 + i)), getCell b q.1 q.2 = p) :
    (countDir b p 8 r0 (c0 + a) 0 1 : Int) +
      (countDir b p 8 r0 (c0 + a) 0 (-1) : Int) - 1 ≥ 4 := by
  have hfwd := countDir_complete b p 0 1 8 r0 (c0 + a) (4 - a) (by omega)
    (fun i hi => by
      refine ⟨by omega, by omega, by push_cast; omega, by push_cast; omega, ?_⟩
      have hq := hall (r0, c0 + (a + i))
        (by simp only [List.mem_map, List.mem_range]; exact ⟨a + i, by omega, rfl⟩)
      convert hq using 2 <;> push_cast <;> omega)
  have hbwd := countDir_complete b p 0 (-1) 8 r0 (c0 + a) (a + 1) (by omega)
    (fun i hi => by
      refine ⟨by omega, by omega, by push_cast; omega, by push_cast; omega, ?_⟩
      have hq := hall (r0, c0 + (a - i))
        (by simp only [List.mem_map, List.mem_range]; exact ⟨a - i, by omega, rfl⟩)
      convert hq using 2 <;> push_cast <;> omega)
  omega

lemma vert_counts (b : Board) (p : Int) (r0 c0 a : Nat) (hr0 : r0 < 3) (hc0 : c0 < 7)
    (ha : a < 4)
    (hall : ∀ q ∈ (List.range 4).map (fun i => (r0 + i, c0)), getCell b q.1 q.2 = p) :
    (countDir b p 8 (r0 + a) c0 1 0 : Int) +
      (countDir b p 8 (r0 + a) c0 (-1) 0 : Int) - 1 ≥ 4 := by
  have hfwd := countDir_complete b p 1 0 8 (r0 + a) c0 (4 - a) (by omega)
    (fun i hi => by
      refine ⟨by push_cast; omega, by push_cast; omega, by omega, by omega, ?_⟩
      have hq := hall (r0 + (a + i), c0)
        (by simp only [List.mem_map, List.mem_range]; exact ⟨a + i, by omega, rfl⟩)
      convert hq using 2 <;> push_cast <;> omega)
  have hbwd := countDir_complete b p (-1) 0 8 (r0 + a) c0 (a + 1) (by omega)
    (fun i hi => by
      refine ⟨by push_cast; omega, by push_cast; omega, by omega, by omega, ?_⟩
      have hq := hall (r0 + (a - i), c0)
        (by simp only [List.mem_map, List.mem_range]; exact ⟨a - i, by omega, rfl⟩)
      convert hq using 2 <;> push_cast <;> omega)
  omega

lemma diag1_counts (b : Board) (p : Int) (r0 c0 a : Nat) (hr0 : r0 < 3) (hc0 : c0 < 4)
    (ha : a < 4)
    (hall : ∀ q ∈ (List.range 4).map (fun i => (r0 + i, c0 + i)), getCell b q.1 q.2 = p) :
    (countDir b p 8 (r0 + a) (c0 + a) 1 1 : Int) +
      (countDir b p 8 (r0 + a) (c0 + a) (-1) (-1) : Int) - 1 ≥ 4 := by
  have hfwd := countDir_complete b p 1 1 8 (r0 + a) (c0 + a) (4 - a) (by omega)
    (fun i hi => by
      refine ⟨by push_cast; omega, by push_cast; omega, by push_cast; omega,
        by push_cast; omega, ?_⟩
      have hq := hall (r0 + (a + i), c0 + (a + i))
        (by simp only [List.mem_map, List.mem_range]; exact ⟨a + i, by omega, rfl⟩)
      convert hq using 2 <;> push_cast <;> omega)
  have hbwd := countDir_complete b p (-1) (-1) 8 (r0 + a) (c0 + a) (a + 1) (by omega)
    (fun i hi => by
      refine ⟨by push_cast; omega, by push_cast; omega, by push_cast; omega,
        by push_cast; omega, ?_⟩
      have hq := hall (r0 + (a - i), c0 + (a - i))
        (by simp only [List.mem_map, List.mem_range]; exact ⟨a - i, by omega, rfl⟩)
      convert hq using 2 <;> push_cast <;> omega)
  omega

lemma diag2_counts (b : Board) (p : Int) (r0 c0 a : Nat) (hr0 : r0 < 3) (hc0 : c0 < 4)
    (ha : a < 4)
    (hall : ∀ q ∈ (List.range 4).map (fun i => (r0 + 3 - i, c0 + i)), getCell b q.1 q.2 = p) :
    (countDir b p 8 ((r0 + 3 - a : Nat) : Int) ((c0 + a : Nat) : Int) (-1) 1 : Int) +
      (countDir b p 8 ((r0 + 3 - a : Nat) : Int) ((c0 + a : Nat) : Int) 1 (-1) : Int) - 1 ≥ 4 := by
  have hfwd := countDir_complete b p (-1) 1 8 ((r0 + 3 - a : Nat) : Int) ((c0 + a : Nat) : Int) (4 - a) (by omega)
    (fun i hi => by
      refine ⟨by push_cast; omega, by push_cast; omega, by push_cast; omega,
        by push_cast; omega, ?_⟩
      have hq := hall (r0 + 3 - (a + i), c0 + (a + i))
        (by simp only [List.mem_map, List.mem_range]; exact ⟨a + i, by omega, rfl⟩)
      convert hq using 2 <;> push_cast <;> omega)
  have hbwd := countDir_complete b p 1 (-1) 8 ((r0 + 3 - a : Nat) : Int) ((c0 + a : Nat) : Int) (a + 1) (by omega)
    (fun i hi => by
      refine ⟨by push_cast; omega, by push_cast; omega, by push_cast; omega,
        by push_cast; omega, ?_⟩
      have hq := hall (r0 + 3 - (a - i), c0 + (a - i))
        (by simp only [List.mem_map, List.mem_range]; exact ⟨a - i, by omega, rfl⟩)
      convert hq using 2 <;> push_cast <;> omega)
  omega

/-- Claim C7: for every board, player, and in-range cell occupied by that
player, the local win check centered on the cell agrees with the full
catalogue scan: it returns true exactly when some precomputed window through
the cell is entirely occupied by the player. -/
theorem isWin_iff_window (b : Board) (p : Int) (r c : Nat)
    (hr : r < 6) (hc : c < 7) (hocc : getCell b r c = p) :
    isWin b p r c = true ↔ winByWindow b p r c = true := by
  constructor
  · intro hw
    unfold isWin at hw
    rw [List.any_eq_true] at hw
    obtain ⟨d, hd, hineq⟩ := hw
    simp only [decide_eq_true_eq] at hineq
    fin_cases hd
    · exact horiz_window_exists b p r c hr hc hocc hineq
    · exact vert_window_exists b p r c hr hc hocc hineq
    · exact diag1_window_exists b p r c hr hc hocc hineq
    · exact diag2_window_exists b p r c hr hc hocc hineq
  · intro hw
    unfold winByWindow at hw
    rw [List.any_eq_true] at hw
    obtain ⟨w, hwmem, hcond⟩ := hw
    rw [Bool.and_eq_true] at hcond
    have hmem : (r, c) ∈ w := by simpa using hcond.1
    have hall : ∀ q ∈ w, getCell b q.1 q.2 = p := by
      intro q hq
      have := List.all_eq_true.1 hcond.2 q hq
      simpa using this
    rcases WINDOWS_cases w hwmem with ⟨r0, c0, hr0, hc0, hweq⟩ | ⟨r0, c0, hr0, hc0, hweq⟩ |
      ⟨r0, c0, hr0, hc0, hweq⟩ | ⟨r0, c0, hr0, hc0, hweq⟩ <;> subst hweq
    · simp only [List.mem_map, List.mem_range] at hmem
      obtain ⟨a, ha, ha2⟩ := hmem
      injection ha2 with h1 h2
      subst h1
      subst h2
      unfold isWin
      rw [List.any_eq_true]
      refine ⟨((0 : Int), (1 : Int)), by simp, ?_⟩
      simp only [decide_eq_true_eq]
      exact horiz_counts b p r0 c0 a hr0 hc0 ha hall
    · simp only [List.mem_map, List.mem_range] at hmem
      obtain ⟨a, ha, ha2⟩ := hmem
      injection ha2 with h1 h2
      subst h1
      subst h2
      unfold isWin
      rw [List.any_eq_true]
      refine ⟨((1 : Int), (0 : Int)), by simp, ?_⟩
      simp only [decide_eq_true_eq]
      exact vert_counts b p r0 c0 a hr0 hc0 ha hall
    · simp only [List.mem_map, List.mem_range] at hmem
      obtain ⟨a, ha, ha2⟩ := hmem
      injection ha2 with h1 h2
      subst h1
      subst h2
      unfold isWin
      rw [List.any_eq_true]
      refine ⟨((1 : Int), (1 : Int)), by simp, ?_⟩
      simp only [decide_eq_true_eq]
      exact diag1_counts b p r0 c0 a hr0 hc0 ha hall
    · simp only [List.mem_map, List.mem_range] at hmem
      obtain ⟨a, ha, ha2⟩ := hmem
      injection ha2 with h1 h2
      subst h1
      subst h2
      unfold isWin
      rw [List.any_eq_true]
      refine ⟨((-1 : Int), (1 : Int)), by simp, ?_⟩
      simp only [decide_eq_true_eq]
      exact diag2_counts b p r0 c0 a hr0 hc0 ha hall

theorem isWin_iff_window_witness :
    (5 < 6 ∧ 5 < 7 ∧ getCell bC5 5 5 = -1) ∧
      (isWin bC5 (-1) 5 5 = true ↔ winByWindow bC5 (-1) 5 5 = true) :=
  ⟨by decide, isWin_iff_window bC5 (-1) 5 5 (by decide) (by decide) (by decide)⟩

/-! ### Claim C1: the cached alpha-beta search versus plain minimax -/

/-- Fold that takes the running maximum of child scores, the shared shape of
the minimax fold and of the alpha-beta loop's value accumulation. -/
def gFold (g : Nat → Int) (l : List Nat) (s : Int) : Int :=
  l.foldl (fun acc c => max acc (g c)) s

lemma gFold_base_le (g : Nat → Int) : ∀ (l : List Nat) (s : Int), s ≤ gFold g l s := by
  intro l
  induction l with
  | nil => intro s; exact le_refl s
  | cons c rest ih =>
    intro s
    calc s ≤ max s (g c) := le_max_left _ _
    _ ≤ gFold g rest (max s (g c)) := ih _
    _ = gFold g (c :: rest) s := rfl

lemma gFold_mono (g : Nat → Int) : ∀ (l : List Nat) (s t : Int), s ≤ t →
    gFold g l s ≤ gFold g l t := by
  intro l
  induction l with
  | nil => intro s t h; exact h
  | cons c rest ih =>
    intro s t h
    exact ih _ _ (max_le_max_right _ h)

lemma gFold_mem_le (g : Nat → Int) : ∀ (l : List Nat) (s : Int) (c : Nat), c ∈ l →
    g c ≤ gFold g l s := by
  intro l
  induction l with
  | nil => intro s c hc; cases hc
  | cons x rest ih =>
    intro s c hc
    rcases List.mem_cons.1 hc with h | h
    · subst h
      calc g c ≤ max s (g c) := le_max_right _ _
      _ ≤ gFold g rest _ := gFold_base_le g rest _
    · exact ih _ c h

lemma gFold_le (g : Nat → Int) : ∀ (l : List Nat) (s B : Int), s ≤ B →
    (∀ c ∈ l, g c ≤ B) → gFold g l s ≤ B := by
  intro l
  induction l with
  | nil => intro s B hs _; exact hs
  | cons c rest ih =>
    intro s B hs hall
    exact ih _ B (max_le hs (hall c (List.mem_cons_self _ _)))
      (fun c' hc' => hall c' (List.mem_cons_of_mem _ hc'))

lemma gFold_max (g : Nat → Int) : ∀ (l : List Nat) (x y : Int),
    gFold g l (max x y) = max (gFold g l x) y := by
  intro l
  induction l with
  | nil => intro x y; rfl
  | cons c rest ih =>
    intro x y
    show gFold g rest (max (max x y) (g c)) = max (gFold g rest (max x (g c))) y
    rw [max_assoc, max_comm y (g c), ← max_assoc, ih]

lemma gFold_perm (g : Nat → Int) {l1 l2 : List Nat} (h : l1.Perm l2) :
    ∀ s : Int, gFold g l1 s = gFold g l2 s := by
  induction h with
  | nil => intro s; rfl
  | cons x _ ih =>
    intro s
    show gFold g _ (max s (g x)) = gFold g _ (max s (g x))
    exact ih _
  | swap x y _ =>
    intro s
    show gFold g _ (max (max s (g y)) (g x)) = gFold g _ (max (max s (g x)) (g y))
    rw [max_assoc, max_comm (g y) (g x), ← max_assoc]
  | trans _ _ ih1 ih2 =>
    intro s
    rw [ih1, ih2]

lemma orderedMoves_perm_valid (b : Board) : (orderedMoves b).Perm (validMoves b) := by
  have h : MOVE_ORDER.Perm (List.range 7) := by decide
  exact h.filter _

lemma mmChildScore_le (d : Nat) (b : Board) (p : Int) (c : Nat)
    (hbd : -WINSCORE ≤ minimaxValue d (setCell b ((nextOpenRow b c).getD 0) c p) (-p) ∧
      minimaxValue d (setCell b ((nextOpenRow b c).getD 0) c p) (-p) ≤ WINSCORE) :
    mmChildScore (minimaxValue d) b p c ≤ WINSCORE := by
  unfold mmChildScore
  rcases hrow : nextOpenRow b c with _ | r <;> dsimp only
  · decide
  · rw [hrow] at hbd
    simp only [Option.getD_some] at hbd
    split
    · exact le_refl _
    · omega

lemma minimax_bound : ∀ (d : Nat) (b : Board) (p : Int),
    -WINSCORE ≤ minimaxValue d b p ∧ minimaxValue d b p ≤ WINSCORE := by
  intro d
  induction d with
  | zero =>
    intro b p
    have hev := evaluate_bound b
    unfold minimaxValue
    split
    · constructor <;> decide
    · split <;> unfold WINSCORE <;> omega
  | succ d ih =>
    intro b p
    rcases hval : validMoves b with _ | ⟨v, vs⟩
    · unfold minimaxValue
      rw [hval]
      constructor <;> simp <;> decide
    · have hvne : validMoves b ≠ [] := by rw [hval]; simp
      have heq : minimaxValue (d + 1) b p =
          gFold (mmChildScore (minimaxValue d) b p) (validMoves b) (-INF) := by
        show (if validMoves b = [] then 0 else (validMoves b).foldl
            (fun acc c => max acc (mmChildScore (minimaxValue d) b p c)) (-INF)) =
          gFold (mmChildScore (minimaxValue d) b p) (validMoves b) (-INF)
        rw [if_neg hvne]
        rfl
      rw [heq]
      constructor
      · -- the head's score is within bounds and below the fold
        have hvmem : v ∈ validMoves b := by rw [hval]; exact List.mem_cons_self _ _
        have hcell : getCell b 0 v = 0 := ((mem_validMoves _ _).1 hvmem).2
        rcases nextOpenRow_of_legal b v hcell with ⟨r, hrow⟩
        have hsc : -WINSCORE ≤ mmChildScore (minimaxValue d) b p v := by
          unfold mmChildScore
          rw [hrow]
          dsimp only
          split
          · decide
          · have := (ih (setCell b r v p) (-p)).2
            omega
        calc (-WINSCORE : Int) ≤ mmChildScore (minimaxValue d) b p v := hsc
        _ ≤ gFold (mmChildScore (minimaxValue d) b p) (validMoves b) (-INF) :=
          gFold_mem_le _ _ _ _ hvmem
      · refine gFold_le _ _ _ _ (by decide) ?_
        intro c hc
        refine mmChildScore_le d b p c ⟨?_, ?_⟩
        · exact (ih _ _).1
        · exact (ih _ _).2

lemma nmLoop_cons_none (child : Board → Int → Int → Int → Int) (b : Board)
    (p beta : Int) (c : Nat) (rest : List Nat) (v a : Int)
    (hrow : nextOpenRow b c = none) :
    nmLoop child b p beta (c :: rest) v a = nmLoop child b p beta rest v a := by
  simp only [nmLoop, hrow]

lemma nmLoop_cons_some (child : Board → Int → Int → Int → Int) (b : Board)
    (p beta : Int) (c : Nat) (rest : List Nat) (v a : Int) (r : Nat)
    (hrow : nextOpenRow b c = some r) :
    nmLoop child b p beta (c :: rest) v a =
      (if beta ≤ max a (if isWin (setCell b r c p) p r c then WINSCORE
            else -(child (setCell b r c p) (-p) (-beta) (-a)))
        then max v (if isWin (setCell b r c p) p r c then WINSCORE
            else -(child (setCell b r c p) (-p) (-beta) (-a)))
        else nmLoop child b p beta rest
          (max v (if isWin (setCell b r c p) p r c then WINSCORE
            else -(child (setCell b r c p) (-p) (-beta) (-a))))
          (max a (if isWin (setCell b r c p) p r c then WINSCORE
            else -(child (setCell b r c p) (-p) (-beta) (-a))))) := by
  simp only [nmLoop, hrow, ge_iff_le]

lemma mmChildScore_some (child : Board → Int → Int) (b : Board) (p : Int)
    (c r : Nat) (hrow : nextOpenRow b c = some r) :
    mmChildScore child b p c =
      (if isWin (setCell b r c p) p r c then WINSCORE
        else -(child (setCell b r c p) (-p))) := by
  unfold mmChildScore
  rw [hrow]

lemma stepCore (alpha0 beta v a s ts Q wc w : Int)
    (ha : a = max alpha0 v) (hab : a < beta) (hQ : v ≤ Q)
    (A1 : beta ≤ s → s ≤ ts) (A2 : s ≤ a → ts ≤ s)
    (A3 : a < s → s < beta → s = ts)
    (hw : w = if beta ≤ max a s then max v s else wc)
    (hL : ¬ beta ≤ max a s →
      max v s ≤ wc ∧ (wc ≤ alpha0 → max Q s ≤ wc) ∧
      (beta ≤ wc → wc ≤ max Q s) ∧ (alpha0 < wc → wc < beta → wc = max Q s)) :
    v ≤ w ∧ (w ≤ alpha0 → max Q ts ≤ w) ∧ (beta ≤ w → w ≤ max Q ts) ∧
    (alpha0 < w → w < beta → w = max Q ts) := by
  have halpha0a : alpha0 ≤ a := by rw [ha]; exact le_max_left _ _
  have hva : v ≤ a := by rw [ha]; exact le_max_right _ _
  by_cases hcut : beta ≤ max a s
  · rw [if_pos hcut] at hw
    have hbs : beta ≤ s := by
      rcases max_choice a s with h | h <;> rw [h] at hcut <;> omega
    have hts : s ≤ ts := A1 hbs
    have hvs : v ≤ max v s := le_max_left _ _
    have hsv : s ≤ max v s := le_max_right _ _
    refine ⟨by omega, ?_, ?_, ?_⟩
    · intro hle
      omega
    · intro _
      rw [hw]
      exact max_le_max hQ hts
    · intro _ hlt
      omega
  · rw [if_neg hcut] at hw
    subst hw
    have hsb : s < beta := lt_of_le_of_lt (le_max_right a s) (not_le.1 hcut)
    obtain ⟨l1, l2, l3, l4⟩ := hL hcut
    have hvw : v ≤ w := le_trans (le_max_left v s) l1
    by_cases hsa : s ≤ a
    · have hts : ts ≤ s := A2 hsa
      refine ⟨hvw, ?_, ?_, ?_⟩
      · intro hle
        have h2 := l2 hle
        have h3 : max Q ts ≤ max Q s := max_le_max (le_refl Q) hts
        omega
      · intro hbw
        have h3 := l3 hbw
        rcases max_choice Q s with h | h
        · rw [h] at h3
          exact le_trans h3 (le_max_left _ _)
        · rw [h] at h3
          omega
      · intro h1 h2
        have h4 := l4 h1 h2
        have hQw : Q ≤ w := by
          have := le_max_left Q s
          omega
        have hsw : s ≤ w := by
          have := le_max_right Q s
          omega
        have htw : max Q ts ≤ w := max_le hQw (le_trans hts hsw)
        rcases max_choice Q s with h | h
        · rw [h] at h4
          have hQt : Q ≤ max Q ts := le_max_left _ _
          omega
        · rw [h] at h4
          rcases max_choice alpha0 v with h' | h'
          · rw [h'] at ha
            omega
          · rw [h'] at ha
            have hvm : v ≤ max v s := le_max_left _ _
            have hQt : Q ≤ max Q ts := le_max_left _ _
            omega
    · push_neg at hsa
      have hst : s = ts := A3 hsa hsb
      subst hst
      exact ⟨hvw, l2, l3, l4⟩

lemma nmLoopBound (d : Nat) (b : Board) (p : Int)
    (hchild : ∀ (b2 : Board) (p2 alpha beta : Int),
      -INF ≤ alpha → alpha < beta → beta ≤ INF →
      (negamaxNoTT d b2 p2 alpha beta ≤ alpha →
        minimaxValue d b2 p2 ≤ negamaxNoTT d b2 p2 alpha beta) ∧
      (beta ≤ negamaxNoTT d b2 p2 alpha beta →
        negamaxNoTT d b2 p2 alpha beta ≤ minimaxValue d b2 p2) ∧
      (alpha < negamaxNoTT d b2 p2 alpha beta →
        negamaxNoTT d b2 p2 alpha beta < beta →
        negamaxNoTT d b2 p2 alpha beta = minimaxValue d b2 p2))
    (alpha0 beta : Int) (h0 : -INF ≤ alpha0) (hbI : beta ≤ INF) :
    ∀ (ms : List Nat) (v a : Int), a = max alpha0 v → a < beta → -INF ≤ v →
      v ≤ nmLoop (negamaxNoTT d) b p beta ms v a ∧
      (nmLoop (negamaxNoTT d) b p beta ms v a ≤ alpha0 →
        gFold (mmChildScore (minimaxValue d) b p) ms v ≤
          nmLoop (negamaxNoTT d) b p beta ms v a) ∧
      (beta ≤ nmLoop (negamaxNoTT d) b p beta ms v a →
        nmLoop (negamaxNoTT d) b p beta ms v a ≤
          gFold (mmChildScore (minimaxValue d) b p) ms v) ∧
      (alpha0 < nmLoop (negamaxNoTT d) b p beta ms v a →
        nmLoop (negamaxNoTT d) b p beta ms v a < beta →
        nmLoop (negamaxNoTT d) b p beta ms v a =
          gFold (mmChildScore (minimaxValue d) b p) ms v) := by
  intro ms
  induction ms with
  | nil =>
    intro v a ha hab hv
    exact ⟨le_refl _, fun _ => le_refl _, fun _ => le_refl _, fun _ _ => rfl⟩
  | cons c rest ih =>
    intro v a ha hab hv
    have halpha0a : alpha0 ≤ a := by rw [ha]; exact le_max_left _ _
    rcases hrow : nextOpenRow b c with _ | r
    · have hw := nmLoop_cons_none (negamaxNoTT d) b p beta c rest v a hrow
      have hgc : mmChildScore (minimaxValue d) b p c = -INF := by
        unfold mmChildScore
        rw [hrow]
      have ht : gFold (mmChildScore (minimaxValue d) b p) (c :: rest) v
          = gFold (mmChildScore (minimaxValue d) b p) rest v := by
        show gFold (mmChildScore (minimaxValue d) b p) rest
            (max v (mmChildScore (minimaxValue d) b p c)) = _
        rw [hgc, max_eq_left hv]
      rw [hw, ht]
      exact ih v a ha hab hv
    · have hQv : v ≤ gFold (mmChildScore (minimaxValue d) b p) rest v :=
        gFold_base_le _ rest v
      have ht : gFold (mmChildScore (minimaxValue d) b p) (c :: rest) v
          = max (gFold (mmChildScore (minimaxValue d) b p) rest v)
              (mmChildScore (minimaxValue d) b p c) := by
        show gFold (mmChildScore (minimaxValue d) b p) rest
            (max v (mmChildScore (minimaxValue d) b p c)) = _
        exact gFold_max _ rest v _
      have hw0 := nmLoop_cons_some (negamaxNoTT d) b p beta c rest v a r hrow
      have hTS0 := mmChildScore_some (minimaxValue d) b p c r hrow
      rw [ht]
      by_cases hwin : isWin (setCell b r c p) p r c
      · rw [if_pos hwin] at hTS0
        simp only [if_pos hwin] at hw0
        rw [hTS0]
        refine stepCore alpha0 beta v a WINSCORE WINSCORE _ _ _ ha hab hQv
          (fun _ => le_refl _) (fun _ => le_refl _) (fun _ _ => rfl) hw0 ?_
        intro hnc
        have hih := ih (max v WINSCORE) (max a WINSCORE)
          (by rw [ha, max_assoc]) (not_le.1 hnc)
          (le_trans hv (le_max_left _ _))
        rw [gFold_max] at hih
        exact hih
      · rw [if_neg hwin] at hTS0
        simp only [if_neg hwin] at hw0
        rw [hTS0]
        obtain ⟨q1, q2, q3⟩ := hchild (setCell b r c p) (-p) (-beta) (-a)
          (by omega) (by omega) (by omega)
        refine stepCore alpha0 beta v a
          (-(negamaxNoTT d (setCell b r c p) (-p) (-beta) (-a)))
          (-(minimaxValue d (setCell b r c p) (-p)))
          _ _ _ ha hab hQv ?_ ?_ ?_ hw0 ?_
        · intro h
          have := q1 (by omega)
          omega
        · intro h
          have := q2 (by omega)
          omega
        · intro h1 h2
          have := q3 (by omega) (by omega)
          omega
        · intro hnc
          have hih := ih
            (max v (-(negamaxNoTT d (setCell b r c p) (-p) (-beta) (-a))))
            (max a (-(negamaxNoTT d (setCell b r c p) (-p) (-beta) (-a))))
            (by rw [ha, max_assoc]) (not_le.1 hnc)
            (le_trans hv (le_max_left _ _))
          rw [gFold_max] at hih
          exact hih

lemma negamaxNoTT_spec : ∀ (d : Nat) (b : Board) (p alpha beta : Int),
    -INF ≤ alpha → alpha < beta → beta ≤ INF →
    (negamaxNoTT d b p alpha beta ≤ alpha →
      minimaxValue d b p ≤ negamaxNoTT d b p alpha beta) ∧
    (beta ≤ negamaxNoTT d b p alpha beta →
      negamaxNoTT d b p alpha beta ≤ minimaxValue d b p) ∧
    (alpha < negamaxNoTT d b p alpha beta →
      negamaxNoTT d b p alpha beta < beta →
      negamaxNoTT d b p alpha beta = minimaxValue d b p) := by
  intro d
  induction d with
  | zero =>
    intro b p alpha beta h0 hab hbI
    have h : negamaxNoTT 0 b p alpha beta = minimaxValue 0 b p := rfl
    rw [h]
    exact ⟨fun _ => le_refl _, fun _ => le_refl _, fun _ _ => rfl⟩
  | succ d ih =>
    intro b p alpha beta h0 hab hbI
    by_cases hnil : validMoves b = []
    · have h1 : negamaxNoTT (d + 1) b p alpha beta = 0 := by
        unfold negamaxNoTT
        rw [if_pos hnil]
      have h2 : minimaxValue (d + 1) b p = 0 := by
        unfold minimaxValue
        rw [if_pos hnil]
      rw [h1, h2]
      exact ⟨fun _ => le_refl _, fun _ => le_refl _, fun _ _ => rfl⟩
    · have h1 : negamaxNoTT (d + 1) b p alpha beta
          = nmLoop (negamaxNoTT d) b p beta (orderedMoves b) (-INF) alpha := by
        show (if validMoves b = [] then 0
            else nmLoop (negamaxNoTT d) b p beta (orderedMoves b) (-INF) alpha) = _
        rw [if_neg hnil]
      have h2 : minimaxValue (d + 1) b p
          = gFold (mmChildScore (minimaxValue d) b p) (validMoves b) (-INF) := by
        show (if validMoves b = [] then 0 else (validMoves b).foldl
            (fun acc c => max acc (mmChildScore (minimaxValue d) b p c)) (-INF)) =
          gFold (mmChildScore (minimaxValue d) b p) (validMoves b) (-INF)
        rw [if_neg hnil]
        rfl
      have hperm := gFold_perm (mmChildScore (minimaxValue d) b p)
        (orderedMoves_perm_valid b) (-INF)
      have halpha : alpha = max alpha (-INF) := (max_eq_left h0).symm
      obtain ⟨hP1, hP2, hP3, hP4⟩ := nmLoopBound d b p ih alpha beta h0 hbI
        (orderedMoves b) (-INF) alpha halpha hab (le_refl _)
      rw [h1, h2, ← hperm]
      exact ⟨hP2, hP3, hP4⟩

/-- At the full window the pruned cache-free search agrees with plain minimax:
fail-low and fail-high are impossible there, so the exact branch of
`negamaxNoTT_spec` applies. -/
lemma negamaxNoTT_full_window (d : Nat) (b : Board) (p : Int) :
    negamaxNoTT d b p (-INF) INF = minimaxValue d b p := by
  obtain ⟨q1, q2, q3⟩ := negamaxNoTT_spec d b p (-INF) INF (le_refl _)
    (by decide) (le_refl _)
  obtain ⟨hm1, hm2⟩ := minimax_bound d b p
  have hiw : (-INF : Int) < -WINSCORE ∧ (WINSCORE : Int) < INF := by decide
  by_cases h1 : negamaxNoTT d b p (-INF) INF ≤ -INF
  · have := q1 h1
    omega
  · by_cases h2 : INF ≤ negamaxNoTT d b p (-INF) INF
    · have := q2 h2
      omega
    · exact q3 (by omega) (by omega)

/-- Claim C1 (amended): with the transposition cache disabled, the negamax
search with alpha-beta pruning, called at the full window alpha = -inf and
beta = +inf with a time budget that never expires, returns exactly the value
of a plain fixed-depth minimax over the same game tree, for every board,
every depth, and both players. -/
theorem negamaxNoTT_eq_minimax (d : Nat) (b : Board) (p : Int) :
    negamaxNoTT d b p (-INF) INF = minimaxValue d b p :=
  negamaxNoTT_full_window d b p

/-- A concrete position on which the cached search and plain minimax disagree. -/
def cexB : Board :=
  [0,0,0,1,-1,-1,1, 0,0,0,-1,-1,1,1, 1,-1,1,1,1,-1,-1,
   1,-1,-1,-1,1,1,-1, 1,1,-1,1,-1,-1,1, -1,1,1,-1,-1,1,1]

set_option maxRecDepth 100000 in
/-- On `cexB` the depth-4 cached search at the full window returns -235 for
the AI player. -/
lemma cexB_tt_value :
    (negamaxTT neverClock 4 ⟨cexB, [], 0, false⟩ (-1) (-INF) INF).1 = -235 := by
  decide!

set_option maxRecDepth 100000 in
/-- On `cexB` the depth-4 cache-free pruned search at the full window
returns -1200 for the AI player. -/
lemma cexB_noTT_value : negamaxNoTT 4 cexB (-1) (-INF) INF = -1200 := by
  decide!

/-- Claim C1 (refuted as stated): on the concrete position `cexB`, the depth-4
negamax search with alpha-beta pruning and the transposition cache enabled,
called at the full window with a budget that never expires, returns a value
(-235) different from the plain fixed-depth minimax value (-1200) of the same
position: the cache tags every stored entry with flag 1 against the
loop-updated alpha, so a fail-high score is later reused as an upper bound. -/
theorem negamaxTT_ne_minimax_on_cexB :
    ¬ ((negamaxTT neverClock 4 ⟨cexB, [], 0, false⟩ (-1) (-INF) INF).1
      = minimaxValue 4 cexB (-1)) := by
  have h3 : minimaxValue 4 cexB (-1) = -1200 := by
    rw [← negamaxNoTT_full_window, cexB_noTT_value]
  rw [cexB_tt_value, h3]
  decide
